import Mathlib

/-!
# pki.io file-system store (`fs/fs.go`)

A shallow embedding of the `FsAPI` type of `fs/fs.go` and of the library
calls it is built from (`filepath.Join`, `filepath.Glob`, `os.MkdirAll`,
`ioutil.WriteFile`, `ioutil.ReadFile`, `os.Remove`), followed by theorems
about the object store and the directory-backed queues.

Modelling conventions.

* A file system is a finite map from absolute paths (lists of components)
  to nodes, together with the working directory against which relative
  paths are resolved.  The root and every ancestor of the working directory
  are directories.  There are no symbolic links, and the calling process is
  never refused for lack of permission: permission bits are recorded as the
  calls pass them (umask 0) but not enforced.
* The system calls are those of Linux: a path with a NUL byte is refused
  with `EINVAL` before the kernel sees it, a path of 4096 bytes or more and
  a component of more than 255 bytes with `ENAMETOOLONG`.  Devices never
  fail and never fill up.
* A Go `error` built by `fmt.Errorf` carries a message and nothing else, so
  it is modelled by its message string.
* `filepath.Match` and `filepath.Glob` are those of Go 1.16 and later: a
  malformed pattern is an error even where no name is matched against it.
* Strings are sequences of Unicode characters; a Go string that is not
  valid UTF-8 is outside the model.  `Match` reads pattern and name
  character by character.  Go skips single bytes after a star, which gives
  another answer only where a `?` or a character class follows a star and
  the name holds a character of several bytes.
* `NewAPI` is not modelled: a store handle is any pair of an identity and a
  root path.
* `uuid.TimeOrderedUUID()` belongs to another repository; the token it
  returns is an argument of `Push`.
-/

namespace PkiFs

deriving instance DecidableEq for Except

/-! ## Paths: `filepath.Clean` and `filepath.Join` -/

/-- Pieces of a path string between the separators. -/
def splitSep : List Char → List (List Char)
  | [] => [[]]
  | c :: cs =>
    if c = '/' then [] :: splitSep cs
    else match splitSep cs with
      | [] => [[c]]
      | h :: t => (c :: h) :: t

/-- Components of one path element, as strings. -/
def elemComps (e : String) : List String :=
  (splitSep e.data).map String.mk

/-- One step of `filepath.Clean`: `out` holds the components kept so far. -/
def cleanStep (rooted : Bool) (out : List String) (c : String) : List String :=
  if c = "" ∨ c = "." then out
  else if c = ".." then
    match out.getLast? with
    | some l => if l = ".." then out ++ [c] else out.dropLast
    | none => if rooted then out else out ++ [c]
  else out ++ [c]

/-- Cleaned path: whether it starts at the root, and its components.  The
relative path without components is `.`, the rooted one is `/`. -/
structure CleanPath where
  rooted : Bool
  comps : List String
deriving DecidableEq, Repr

/-- Path string as the Go code holds it: `none` is the empty string (what
`filepath.Join` returns when every element is empty). -/
abbrev GoPath := Option CleanPath

/-- Components written one after the other with separators between. -/
def sepChars : List String → List Char
  | [] => []
  | [a] => a.data
  | a :: b :: t => a.data ++ '/' :: sepChars (b :: t)

/-- Characters of the text of a cleaned path. -/
def CleanPath.chars (p : CleanPath) : List Char :=
  if p.rooted then '/' :: sepChars p.comps
  else if p.comps = [] then ['.'] else sepChars p.comps

/-- Text of a cleaned path. -/
def CleanPath.toString (p : CleanPath) : String := String.mk p.chars

/-- Text of a path string. -/
def pathText : GoPath → String
  | none => ""
  | some p => p.toString

/-- Cleaning continues from an already clean path with further elements:
`filepath.Join(p, elems...)` for a clean non-empty `p`. -/
def CleanPath.join (p : CleanPath) (elems : List String) : CleanPath :=
  ⟨p.rooted, (elems.flatMap elemComps).foldl (cleanStep p.rooted) p.comps⟩

/-- Go `filepath.Join`: leading empty elements are dropped, the rest is
joined with the separator and cleaned; all elements empty gives the empty
string. -/
def Join (elems : List String) : GoPath :=
  match elems.dropWhile (fun e => e = "") with
  | [] => none
  | e :: es =>
    some (CleanPath.join ⟨decide (e.data.head? = some '/'), []⟩ (e :: es))

/-- Go `filepath.Join(path, elems...)` where `path` is itself the result
of a `Join`. -/
def JoinP (p : GoPath) (elems : List String) : GoPath :=
  match p with
  | none => Join elems
  | some q => some (q.join elems)

/-! ## Patterns: `filepath.Match` -/

/-- Pattern syntax error, `filepath.ErrBadPattern`. -/
def ErrBadPattern : String := "syntax error in pattern"

/-- Leading stars of a pattern: whether there were any, and what follows. -/
def dropStars : List Char → Bool × List Char
  | [] => (false, [])
  | c :: cs => if c = '*' then (true, (dropStars cs).2) else (false, c :: cs)

/-- Scan loop of `scanChunk`: the chunk up to the next star outside a
character class, and the rest of the pattern.  `esc` says that the previous
character was a backslash, whose successor is skipped. -/
def scanLoop : Bool → Bool → List Char → List Char × List Char
  | _, _, [] => ([], [])
  | inrange, esc, c :: cs =>
    if esc = true then let r := scanLoop inrange false cs; (c :: r.1, r.2)
    else if c = '\\' then let r := scanLoop inrange true cs; (c :: r.1, r.2)
    else if c = '[' then let r := scanLoop true false cs; (c :: r.1, r.2)
    else if c = ']' then let r := scanLoop false false cs; (c :: r.1, r.2)
    else if c = '*' then
      if inrange = true then let r := scanLoop inrange false cs; (c :: r.1, r.2)
      else ([], c :: cs)
    else let r := scanLoop inrange false cs; (c :: r.1, r.2)

/-- Go `scanChunk`: star flag, chunk, rest of the pattern. -/
def scanChunk (pattern : List Char) : Bool × List Char × List Char :=
  let s := dropStars pattern
  let r := scanLoop false false s.2
  (s.1, r.1, r.2)

/-- Go `getEsc`: one possibly escaped character of a character class. -/
def getEsc : List Char → Except Unit (Char × List Char)
  | [] => .error ()
  | c :: cs =>
    if c = '-' ∨ c = ']' then .error ()
    else if c = '\\' then
      match cs with
      | [] => .error ()
      | r :: n => if n = [] then .error () else .ok (r, n)
    else if cs = [] then .error () else .ok (c, cs)

/-- Range loop of a character class in `matchChunk`: whether `r` is in one
of the ranges, and the chunk after the closing bracket. -/
def classLoop (r : Char) : Nat → List Char → Bool → Bool →
    Except Unit (Bool × List Char)
  | 0, _, _, _ => .error ()
  | f + 1, chunk, m, some_range =>
    if chunk.head? = some ']' ∧ some_range = true then .ok (m, chunk.tail)
    else
      match getEsc chunk with
      | .error e => .error e
      | .ok (lo, c1) =>
        if c1.head? = some '-' then
          match getEsc c1.tail with
          | .error e => .error e
          | .ok (hi, c2) =>
            classLoop r f c2
              (m || (decide (lo.toNat ≤ r.toNat) && decide (r.toNat ≤ hi.toNat))) true
        else classLoop r f c1 (m || decide (lo = r)) true

/-- Go `matchChunk`: `ok (some rest)` when the chunk matches a prefix of
`s`, `ok none` when it does not, `error` for a malformed chunk.  After the
match has failed (`failed`) the rest of the chunk is still checked for its
syntax, with the zero character in place of the one read so far. -/
def matchChunk : Nat → Bool → List Char → List Char →
    Except Unit (Option (List Char))
  | 0, _, _, _ => .error ()
  | f + 1, failed, chunk, s =>
    match chunk with
    | [] => if failed = true then .ok none else .ok (some s)
    | c :: cs =>
      let failed1 := failed || decide (s = [])
      let s1 := if failed1 = true then s else s.tail
      if c = '[' then
        let r := if failed1 = true then Char.ofNat 0 else s.headD (Char.ofNat 0)
        let negated := decide (cs.head? = some '^')
        let body := if negated = true then cs.tail else cs
        match classLoop r (body.length + 1) body false false with
        | .error e => .error e
        | .ok (m, rest) => matchChunk f (failed1 || decide (m = negated)) rest s1
      else if c = '?' then
        matchChunk f (failed1 || decide (s.head? = some '/')) cs s1
      else if c = '\\' then
        match cs with
        | [] => .error ()
        | d :: ds => matchChunk f (failed1 || decide (s.head? ≠ some d)) ds s1
      else matchChunk f (failed1 || decide (s.head? ≠ some c)) cs s1

/-- Star loop of `Match`: the chunk is tried after skipping one more
character of the name each time; a separator is never skipped. -/
def starLoop (chunk : List Char) (last : Bool) :
    List Char → Except Unit (Option (List Char))
  | [] => .ok none
  | c :: rest =>
    if c = '/' then .ok none
    else
      match matchChunk (chunk.length + 1) false chunk rest with
      | .error e => .error e
      | .ok (some t) => if last = true ∧ t ≠ [] then starLoop chunk last rest else .ok (some t)
      | .ok none => starLoop chunk last rest

/-- End of `Match` when the name does not match: the chunks that remain
are checked for their syntax. -/
def checkRest : Nat → List Char → Except Unit Unit
  | 0, _ => .ok ()
  | f + 1, pattern =>
    if pattern = [] then .ok ()
    else
      match matchChunk ((scanChunk pattern).2.1.length + 1) false (scanChunk pattern).2.1 [] with
      | .error e => .error e
      | .ok _ => checkRest f (scanChunk pattern).2.2

/-- Main loop of Go `filepath.Match` over the chunks of the pattern. -/
def matchLoop : Nat → List Char → List Char → Except Unit Bool
  | 0, _, _ => .error ()
  | f + 1, pattern, name =>
    if pattern = [] then .ok (decide (name = []))
    else
      let sc := scanChunk pattern
      let star := sc.1
      let chunk := sc.2.1
      let rest := sc.2.2
      if star = true ∧ chunk = [] then .ok (decide ('/' ∉ name))
      else
        match matchChunk (chunk.length + 1) false chunk name with
        | .error e => .error e
        | .ok r =>
          match (match r with
                 | some t => if t = [] ∨ rest ≠ [] then some t else none
                 | none => none) with
          | some t => matchLoop f rest t
          | none =>
            match (if star = true then starLoop chunk (decide (rest = [])) name
                   else .ok none) with
            | .error e => .error e
            | .ok (some t) => matchLoop f rest t
            | .ok none =>
              match checkRest (rest.length + 1) rest with
              | .error e => .error e
              | .ok _ => .ok false

/-- Go `filepath.Match(pattern, name)`. -/
def Match (pattern name : String) : Except Unit Bool :=
  matchLoop (pattern.length + 1) pattern.data name.data

/-! ## The file system -/

/-- Node of the file system: a regular file with its content and
permission bits, or a directory with its permission bits. -/
inductive Entry where
  | file (content : String) (mode : Nat)
  | dir (mode : Nat)
deriving DecidableEq, Repr, Inhabited

/-- File-system state: the working directory and the nodes by absolute
path.  The first binding of a path is the one that counts. -/
structure FS where
  cwd : List String
  nodes : List (List String × Entry)
deriving DecidableEq, Repr

/-- Error numbers the calls below can report. -/
inductive Errno where
  | ENOENT | ENOTDIR | EISDIR | EEXIST | ENOTEMPTY | ENAMETOOLONG | EINVAL
deriving DecidableEq, Repr

/-- Text of an error number, as `syscall.Errno.Error` gives it. -/
def Errno.msg : Errno → String
  | .ENOENT => "no such file or directory"
  | .ENOTDIR => "not a directory"
  | .EISDIR => "is a directory"
  | .EEXIST => "file exists"
  | .ENOTEMPTY => "directory not empty"
  | .ENAMETOOLONG => "file name too long"
  | .EINVAL => "invalid argument"

/-- Go `os.PathError`. -/
structure PathError where
  op : String
  path : String
  err : Errno
deriving DecidableEq, Repr

/-- Go `(*PathError).Error`. -/
def PathError.Error (e : PathError) : String :=
  e.op ++ " " ++ e.path ++ ": " ++ e.err.msg

/-- First node bound to the path `k` in a list of bindings. -/
def findKey (k : List String) : List (List String × Entry) → Option Entry
  | [] => none
  | kv :: t => if kv.1 = k then some kv.2 else findKey k t

/-- Bindings without those of the path `k`. -/
def dropKey (k : List String) : List (List String × Entry) → List (List String × Entry)
  | [] => []
  | kv :: t => if kv.1 = k then dropKey k t else kv :: dropKey k t

/-- One component of a path walk: `..` is the parent (the root is its own
parent), `.` and the empty component stay, a name goes down. -/
def walkStep (out : List String) (c : String) : List String :=
  if c = ".." then out.dropLast
  else if c = "" ∨ c = "." then out
  else out ++ [c]

/-- Absolute path of a cleaned path: the walk starts at the root or, for a
relative path, at the working directory. -/
def resolve (st : FS) (p : CleanPath) : List String :=
  p.comps.foldl walkStep (if p.rooted then [] else st.cwd)

/-- Node bound to an absolute path.  The root and the ancestors of the
working directory (itself included) are directories. -/
def lookup (st : FS) (k : List String) : Option Entry :=
  if k <+: st.cwd then some (.dir 0o755) else findKey k st.nodes

/-- Longest file name, in bytes (`NAME_MAX`). -/
def nameMax : Nat := 255

/-- A path of this many bytes is too long (`PATH_MAX`, which counts the
terminating NUL). -/
def pathMax : Nat := 4096

/-- Whether a name is longer than a directory can hold. -/
def tooLong (c : String) : Bool := decide (nameMax < c.utf8ByteSize)

/-- Whether the name `c` is refused when it is looked up in the directory
`pre`: it is too long.  The names on the way to the working directory are
those of existing directories and are not checked. -/
def refused (st : FS) (pre : List String) (c : String) : Bool :=
  tooLong c && !decide ((pre ++ [c]) <+: st.cwd)

/-- Path walk from the prefix `pre` down the components that remain: every
directory on the way has to exist, and a name that is too long is refused
where it would be looked up. -/
def walk (st : FS) : List String → List String → Except Errno Entry
  | pre, [] =>
    match lookup st pre with
    | some e => .ok e
    | none => .error .ENOENT
  | pre, c :: cs =>
    match lookup st pre with
    | some (.dir _) =>
      if refused st pre c = true then .error .ENAMETOOLONG
      else walk st (pre ++ [c]) cs
    | some (.file _ _) => .error .ENOTDIR
    | none => .error .ENOENT

/-- System call `stat` on an absolute path. -/
def sysStat (st : FS) (k : List String) : Except Errno Entry :=
  walk st [] k

/-- State with `k` bound to `e`. -/
def FS.set (st : FS) (k : List String) (e : Entry) : FS :=
  { st with nodes := (k, e) :: dropKey k st.nodes }

/-- State with the binding of `k` removed. -/
def FS.remove (st : FS) (k : List String) : FS :=
  { st with nodes := dropKey k st.nodes }

/-- Name of `k` inside the directory `d`, when `k` is an entry of `d`. -/
def childName? : List String → List String → Option String
  | [], [n] => some n
  | a :: d, b :: k => if a = b then childName? d k else none
  | _, _ => none

/-- Byte-wise order of names (`sort.Strings`): for UTF-8 text it is the
lexical order of the code points. -/
def leChars : List Char → List Char → Bool
  | [], _ => true
  | _ :: _, [] => false
  | a :: as, b :: bs =>
    if a.toNat < b.toNat then true
    else if b.toNat < a.toNat then false
    else leChars as bs

/-- Order of `sort.Strings` on names. -/
def nameLe (a b : String) : Prop := leChars a.data b.data = true

instance : DecidableRel nameLe := fun a b =>
  inferInstanceAs (Decidable (leChars a.data b.data = true))

/-- Paths that name a node: the ancestors of the working directory and
the paths bound in the state. -/
def allKeys (st : FS) : List (List String) :=
  st.cwd.inits ++ st.nodes.map Prod.fst

/-- Names of the entries of the directory `d`, each once, in no particular
order. -/
def childNames (st : FS) (d : List String) : List String :=
  ((allKeys st).filterMap (childName? d)).dedup

/-- Go `(*File).Readdirnames(-1)` followed by `sort.Strings`. -/
def sortedNames (st : FS) (d : List String) : List String :=
  (childNames st d).insertionSort nameLe

/-! ## Library calls on path strings -/

/-- Error a path string meets before any component is looked up: a NUL
byte is refused by the system-call wrapper, a path of `PATH_MAX` bytes by
the kernel. -/
def pathErr (p : CleanPath) : Option Errno :=
  if Char.ofNat 0 ∈ p.chars then some .EINVAL
  else if pathMax ≤ p.toString.utf8ByteSize then some .ENAMETOOLONG
  else none

/-- System call `stat` on a path string. -/
def statPath (st : FS) (p : CleanPath) : Except Errno Entry :=
  match pathErr p with
  | some n => .error n
  | none => sysStat st (resolve st p)

/-- Go `os.Stat`. -/
def Stat (st : FS) (p : GoPath) : Except PathError Entry :=
  match p with
  | none => .error ⟨"stat", "", .ENOENT⟩
  | some q =>
    match statPath st q with
    | .ok e => .ok e
    | .error n => .error ⟨"stat", q.toString, n⟩

/-- Go `os.Mkdir`: the parent has to be a directory and the name free. -/
def Mkdir (st : FS) (p : GoPath) (mode : Nat) : Except PathError FS :=
  match p with
  | none => .error ⟨"mkdir", "", .ENOENT⟩
  | some q =>
    match statPath st q with
    | .ok _ => .error ⟨"mkdir", q.toString, .EEXIST⟩
    | .error .ENOENT =>
      match sysStat st (resolve st q).dropLast with
      | .ok (.dir _) => .ok (st.set (resolve st q) (.dir mode))
      | .ok (.file _ _) => .error ⟨"mkdir", q.toString, .ENOTDIR⟩
      | .error n => .error ⟨"mkdir", q.toString, n⟩
    | .error n => .error ⟨"mkdir", q.toString, n⟩

/-- Go `os.MkdirAll` on the cleaned path with components `rc.reverse`:
nothing to do when the path is a directory; otherwise the parent, when the
path has one, is made first and then the directory itself.  The state is
the one the call leaves, also when it fails after making some parents. -/
def mkdirAllRev (mode : Nat) (rooted : Bool) (st : FS) :
    List String → FS × Option PathError
  | [] =>
    match Stat st (some ⟨rooted, []⟩) with
    | .ok (.dir _) => (st, none)
    | .ok (.file _ _) => (st, some ⟨"mkdir", CleanPath.toString ⟨rooted, []⟩, .ENOTDIR⟩)
    | .error _ =>
      match Mkdir st (some ⟨rooted, []⟩) mode with
      | .ok st2 => (st2, none)
      | .error e => (st, some e)
  | c :: rest =>
    match Stat st (some ⟨rooted, (c :: rest).reverse⟩) with
    | .ok (.dir _) => (st, none)
    | .ok (.file _ _) =>
      (st, some ⟨"mkdir", CleanPath.toString ⟨rooted, (c :: rest).reverse⟩, .ENOTDIR⟩)
    | .error _ =>
      match (if rest = [] then (st, none) else mkdirAllRev mode rooted st rest) with
      | (st1, some e) => (st1, some e)
      | (st1, none) =>
        match Mkdir st1 (some ⟨rooted, (c :: rest).reverse⟩) mode with
        | .ok st2 => (st2, none)
        | .error e =>
          match Stat st1 (some ⟨rooted, (c :: rest).reverse⟩) with
          | .ok (.dir _) => (st1, none)
          | _ => (st1, some e)

/-- Go `os.MkdirAll`: the state it leaves, and its error if it fails. -/
def MkdirAll (st : FS) (p : GoPath) (mode : Nat) : FS × Option PathError :=
  match p with
  | none => (st, some ⟨"mkdir", "", .ENOENT⟩)
  | some q => mkdirAllRev mode q.rooted st q.comps.reverse

/-- Go `ioutil.WriteFile`: the file is created with `mode` or truncated,
and the content written. -/
def WriteFile (st : FS) (p : GoPath) (content : String) (mode : Nat) :
    Except PathError FS :=
  match p with
  | none => .error ⟨"open", "", .ENOENT⟩
  | some q =>
    match statPath st q with
    | .ok (.dir _) => .error ⟨"open", q.toString, .EISDIR⟩
    | .ok (.file _ m) => .ok (st.set (resolve st q) (.file content m))
    | .error .ENOENT =>
      match sysStat st (resolve st q).dropLast with
      | .ok (.dir _) => .ok (st.set (resolve st q) (.file content mode))
      | .ok (.file _ _) => .error ⟨"open", q.toString, .ENOTDIR⟩
      | .error n => .error ⟨"open", q.toString, n⟩
    | .error n => .error ⟨"open", q.toString, n⟩

/-- Go `ioutil.ReadFile`. -/
def ReadFile (st : FS) (p : GoPath) : Except PathError String :=
  match p with
  | none => .error ⟨"open", "", .ENOENT⟩
  | some q =>
    match statPath st q with
    | .ok (.file c _) => .ok c
    | .ok (.dir _) => .error ⟨"read", q.toString, .EISDIR⟩
    | .error n => .error ⟨"open", q.toString, n⟩

/-- Go `os.Remove`: a file is unlinked, an empty directory removed. -/
def Remove (st : FS) (p : GoPath) : Except PathError FS :=
  match p with
  | none => .error ⟨"remove", "", .ENOENT⟩
  | some q =>
    match statPath st q with
    | .ok (.file _ _) => .ok (st.remove (resolve st q))
    | .ok (.dir _) =>
      if childNames st (resolve st q) = [] then .ok (st.remove (resolve st q))
      else .error ⟨"remove", q.toString, .ENOTEMPTY⟩
    | .error n => .error ⟨"remove", q.toString, n⟩

/-! ## `filepath.Glob` -/

/-- Pattern characters `filepath.Glob` looks for (`hasMeta`, on Unix). -/
def isMagic (c : Char) : Bool := c = '*' || c = '?' || c = '[' || c = '\\'

/-- Go `hasMeta` on one component. -/
def hasMetaStr (s : String) : Bool := s.data.any isMagic

/-- Go `hasMeta` on a cleaned path: the separators are not magic. -/
def hasMeta (p : CleanPath) : Bool := p.comps.any hasMetaStr

/-- Matching loop of Go `glob`: the names that match are appended, joined
to the directory. -/
def globNames (dir : CleanPath) (pattern : String) :
    List String → List CleanPath → Except Unit (List CleanPath)
  | [], m => .ok m
  | n :: ns, m =>
    match Match pattern n with
    | .error e => .error e
    | .ok true => globNames dir pattern ns (m ++ [dir.join [n]])
    | .ok false => globNames dir pattern ns m

/-- Go `glob(dir, pattern, matches)`: a directory that cannot be read
contributes nothing; the names are sorted before they are matched. -/
def globDir (st : FS) (dir : CleanPath) (pattern : String)
    (m : List CleanPath) : Except Unit (List CleanPath) :=
  match Stat st (some dir) with
  | .ok (.dir _) => globNames dir pattern (sortedNames st (resolve st dir)) m
  | _ => .ok m

/-- Loop of Go `Glob` over the directories its own pattern matched. -/
def globEach (st : FS) (pattern : String) :
    List CleanPath → List CleanPath → Except Unit (List CleanPath)
  | [], m => .ok m
  | d :: ds, m =>
    match globDir st d pattern m with
    | .error e => .error e
    | .ok m1 => globEach st pattern ds m1

/-- Recursion depth at which Go `Glob` gives up (`pathSeparatorsLimit`). -/
def pathSeparatorsLimit : Nat := 10000

/-- Go `globWithLimit` on the cleaned pattern with components
`rc.reverse`: the depth and the syntax of the whole pattern are checked
first. -/
def globRev (st : FS) (rooted : Bool) : List String → Nat → Except Unit (List CleanPath)
  | [], depth =>
    if depth = pathSeparatorsLimit then .error ()
    else
      match Match (CleanPath.toString ⟨rooted, []⟩) "" with
      | .error e => .error e
      | .ok _ =>
        match Stat st (some ⟨rooted, []⟩) with
        | .ok _ => .ok [⟨rooted, []⟩]
        | .error _ => .ok []
  | file :: rdir, depth =>
    if depth = pathSeparatorsLimit then .error ()
    else
      match Match (CleanPath.toString ⟨rooted, (file :: rdir).reverse⟩) "" with
      | .error e => .error e
      | .ok _ =>
        if hasMeta ⟨rooted, (file :: rdir).reverse⟩ = false then
          match Stat st (some ⟨rooted, (file :: rdir).reverse⟩) with
          | .ok _ => .ok [⟨rooted, (file :: rdir).reverse⟩]
          | .error _ => .ok []
        else if hasMeta ⟨rooted, rdir.reverse⟩ = false then
          globDir st ⟨rooted, rdir.reverse⟩ file []
        else
          match globRev st rooted rdir (depth + 1) with
          | .error e => .error e
          | .ok m => globEach st file m []

/-- Go `filepath.Glob`; the only error is a malformed pattern. -/
def Glob (st : FS) (pattern : GoPath) : Except String (List CleanPath) :=
  match pattern with
  | none => .ok []
  | some q =>
    match globRev st q.rooted q.comps.reverse 0 with
    | .ok m => .ok m
    | .error _ => .error ErrBadPattern

/-! ## `fs/fs.go` -/

def publicFileMode : Nat := 0o644
def publicDirMode : Nat := 0o755
def privateFileMode : Nat := 0o600
def privateDirMode : Nat := 0o700

def publicPath : String := "public"
def privatePath : String := "private"

/-- Store handle of `fs.go`. -/
structure FsAPI where
  Id : String
  Path : String
deriving DecidableEq, Repr

/-- Result of a call together with the state it leaves. -/
abbrev Res (α : Type) := Except String α × FS

def FsAPI.WriteLocal (fs : FsAPI) (st : FS) (name content : String) : Res Unit :=
  let filename := Join [fs.Path, name]
  match WriteFile st filename content privateFileMode with
  | .error err =>
    (.error ("Could not write file '" ++ pathText filename ++ "': " ++ err.Error), st)
  | .ok st1 => (.ok (), st1)

def FsAPI.ReadLocal (fs : FsAPI) (st : FS) (name : String) : Res String :=
  let filename := Join [fs.Path, name]
  match ReadFile st filename with
  | .error err =>
    (.error ("Could not read file '" ++ pathText filename ++ "': " ++ err.Error), st)
  | .ok content => (.ok content, st)

def FsAPI.SendPublic (fs : FsAPI) (st : FS) (dstId name content : String) : Res Unit :=
  let path := Join [fs.Path, publicPath, dstId]
  match MkdirAll st path publicDirMode with
  | (st1, some err) =>
    (.error ("Could not create path '" ++ pathText path ++ "': " ++ err.Error), st1)
  | (st1, none) =>
    let filename := JoinP path [name]
    match WriteFile st1 filename content publicFileMode with
    | .error err =>
      (.error ("Could not write file '" ++ pathText filename ++ "': " ++ err.Error), st1)
    | .ok st2 => (.ok (), st2)

def FsAPI.GetPublic (fs : FsAPI) (st : FS) (dstId name : String) : Res String :=
  let filename := Join [fs.Path, publicPath, dstId, name]
  match ReadFile st filename with
  | .error err =>
    (.error ("Could not read file '" ++ pathText filename ++ "': " ++ err.Error), st)
  | .ok content => (.ok content, st)

def FsAPI.SendPrivate (fs : FsAPI) (st : FS) (dstId name content : String) : Res Unit :=
  let path := Join [fs.Path, privatePath, dstId]
  match MkdirAll st path privateDirMode with
  | (st1, some err) =>
    (.error ("Could not create path '" ++ pathText path ++ "': " ++ err.Error), st1)
  | (st1, none) =>
    let filename := JoinP path [name]
    match WriteFile st1 filename content privateFileMode with
    | .error err =>
      (.error ("Could not write file '" ++ pathText filename ++ "': " ++ err.Error), st1)
    | .ok st2 => (.ok (), st2)

def FsAPI.GetPrivate (fs : FsAPI) (st : FS) (dstId name : String) : Res String :=
  let filename := Join [fs.Path, privatePath, dstId, name]
  match ReadFile st filename with
  | .error err =>
    (.error ("Could not read file '" ++ pathText filename ++ "': " ++ err.Error), st)
  | .ok content => (.ok content, st)

def FsAPI.StorePublic (fs : FsAPI) (st : FS) (name content : String) : Res Unit :=
  if fs.Id.length = 0 then (.error "Id cannot be empty", st)
  else fs.SendPublic st fs.Id name content

def FsAPI.LoadPublic (fs : FsAPI) (st : FS) (name : String) : Res String :=
  if fs.Id.length = 0 then (.error "Id cannot be empty", st)
  else fs.GetPublic st fs.Id name

def FsAPI.StorePrivate (fs : FsAPI) (st : FS) (name content : String) : Res Unit :=
  if fs.Id.length = 0 then (.error "Id cannot be empty", st)
  else fs.SendPrivate st fs.Id name content

def FsAPI.LoadPrivate (fs : FsAPI) (st : FS) (name : String) : Res String :=
  if fs.Id.length = 0 then (.error "Id cannot be empty", st)
  else fs.GetPrivate st fs.Id name

/-- `Push` of `fs.go`; `token` is what `uuid.TimeOrderedUUID()` returns
in this call. -/
def FsAPI.Push (fs : FsAPI) (st : FS) (token : String)
    (dstId name queue content : String) : Res Unit :=
  let path := Join [fs.Path, privatePath, dstId, name, queue]
  match MkdirAll st path privateDirMode with
  | (st1, some err) =>
    (.error ("Could not create path '" ++ pathText path ++ "': " ++ err.Error), st1)
  | (st1, none) =>
    let filename := JoinP path [token]
    match WriteFile st1 filename content privateFileMode with
    | .error err =>
      (.error ("Could not write file '" ++ pathText filename ++ "': " ++ err.Error), st1)
    | .ok st2 => (.ok (), st2)

def FsAPI.PushIncoming (fs : FsAPI) (st : FS) (token : String)
    (dstId queue content : String) : Res Unit :=
  fs.Push st token dstId "incoming" queue content

def FsAPI.PushOutgoing (fs : FsAPI) (st : FS) (token : String)
    (queue content : String) : Res Unit :=
  if 0 = fs.Id.length then (.error "Id cannot be empty", st)
  else fs.Push st token fs.Id "outgoing" queue content

def FsAPI.Pop (fs : FsAPI) (st : FS) (srcId name queue : String) : Res String :=
  let pattern := Join [fs.Path, privatePath, srcId, name, queue, "*"]
  match Glob st pattern with
  | .error err => (.error ("Could not glob files: " ++ err), st)
  | .ok files =>
    match files with
    | [] => (.error "Nothing to pop", st)
    | filename :: _ =>
      match ReadFile st (some filename) with
      | .error err =>
        (.error ("Could not read file '" ++ filename.toString ++ "': " ++ err.Error), st)
      | .ok content =>
        match Remove st (some filename) with
        | .error err => (.error ("Couldn't remove file: " ++ err.Error), st)
        | .ok st1 => (.ok content, st1)

def FsAPI.PopIncoming (fs : FsAPI) (st : FS) (queue : String) : Res String :=
  if 0 = fs.Id.length then (.error "Id cannot be empty", st)
  else fs.Pop st fs.Id "incoming" queue

def FsAPI.PopOutgoing (fs : FsAPI) (st : FS) (srcId queue : String) : Res String :=
  fs.Pop st srcId "outgoing" queue

def FsAPI.Size (fs : FsAPI) (st : FS) (id name queue : String) : Res Nat :=
  let pattern := Join [fs.Path, privatePath, id, name, queue, "*"]
  match Glob st pattern with
  | .error err => (.error ("Could not glob files: " ++ err), st)
  | .ok files => (.ok files.length, st)

def FsAPI.IncomingSize (fs : FsAPI) (st : FS) (queue : String) : Res Nat :=
  if 0 = fs.Id.length then (.error "Id cannot be empty", st)
  else fs.Size st fs.Id "incoming" queue

def FsAPI.OutgoingSize (fs : FsAPI) (st : FS) (id queue : String) : Res Nat :=
  fs.Size st id "outgoing" queue

/-! ## Statement vocabulary -/

/-- Sample state: `/tmp/store` exists and holds the file `note`; the
working directory is `/home`. -/
def sampleFS : FS :=
  ⟨["home"], [(["tmp"], .dir 0o755), (["tmp", "store"], .dir 0o755),
    (["tmp", "store", "note"], .file "old" 0o600)]⟩

/-- Sample store: bound to `/tmp/store`, no identity set. -/
def sampleAPI : FsAPI := ⟨"", "/tmp/store"⟩

/-- Error `ReadLocal` builds from the cause `cause` of a failed read of
`filename`. -/
def readError (filename : GoPath) (cause : PathError) : String :=
  "Could not read file '" ++ pathText filename ++ "': " ++ cause.Error

/-- Error of `ReadLocal` whose cause is the absence of the file. -/
def notFoundError (filename : GoPath) : String :=
  readError filename ⟨"open", pathText filename, .ENOENT⟩

/-- Name of a path component that goes down: not empty, not `.` or `..`,
without a separator. -/
def plainName (n : String) : Prop :=
  n ≠ "" ∧ n ≠ "." ∧ n ≠ ".." ∧ '/' ∉ n.data

instance (n : String) : Decidable (plainName n) := by
  unfold plainName; infer_instance

/-- Name a directory can hold: a plain name without a NUL byte and of at
most `NAME_MAX` bytes. -/
def validName (n : String) : Prop :=
  plainName n ∧ Char.ofNat 0 ∉ n.data ∧ tooLong n = false

instance (n : String) : Decidable (validName n) := by
  unfold validName; infer_instance

/-- Directory of the queue `(id, name, queue)` of a store, as `Push`
computes it. -/
def queueDir (fs : FsAPI) (id name queue : String) : GoPath :=
  Join [fs.Path, privatePath, id, name, queue]

/-- What `MkdirAll` of the directory `K` may change between `st` and
`st1`: the working directory stays, and a path is looked up as before
unless it was free, lies on the way to `K` and is now a directory with the
permission bits `mode`. -/
def DirsMade (st st1 : FS) (K : List String) (mode : Nat) : Prop :=
  st1.cwd = st.cwd ∧
  ∀ k, lookup st1 k = lookup st k ∨
    (lookup st k = none ∧ k <+: K ∧ lookup st1 k = some (.dir mode))

/-- Shape of the components `filepath.Clean` keeps: some `..` in front,
none for a rooted path, and ordinary names after them. -/
def Shape (rooted : Bool) (out : List String) : Prop :=
  ∃ j d, out = List.replicate j ".." ++ d ∧ (∀ c ∈ d, plainName c) ∧
    (rooted = true → j = 0)

/-- Queue entry: the token that names the file, and the content. -/
abbrev Item := String × String

/-- Order of queue entries: that of their tokens. -/
def itemLe (a b : Item) : Prop := nameLe a.1 b.1

instance : DecidableRel itemLe := fun a b =>
  inferInstanceAs (Decidable (nameLe a.1 b.1))

/-- The queue directory `q` holds exactly the entries `items`, in the
order of their tokens: the names in it are the tokens, each a name a
directory can hold, reached by a path the system accepts and bound to a
file with the content of the entry. -/
def QueueIs (st : FS) (q : CleanPath) (items : List Item) : Prop :=
  (items ≠ [] → ∃ md, statPath st q = .ok (.dir md)) ∧
  sortedNames st (resolve st q) = items.map Prod.fst ∧
  ∀ it ∈ items, validName it.1 ∧ pathErr ⟨q.rooted, q.comps ++ [it.1]⟩ = none ∧
    ∃ m, lookup st (resolve st q ++ [it.1]) = some (.file it.2 m)

/-- The pushes `(token, content)` one after the other; `none` when one of
them fails. -/
def pushAll (fs : FsAPI) (id name queue : String) : FS → List Item → Option FS
  | st, [] => some st
  | st, it :: rest =>
    match fs.Push st it.1 id name queue it.2 with
    | (.ok (), st1) => pushAll fs id name queue st1 rest
    | (.error _, _) => none

/-- That many pops one after the other: the contents returned and the
state left; `none` when one of them fails. -/
def popAll (fs : FsAPI) (id name queue : String) : Nat → FS → Option (List String × FS)
  | 0, st => some ([], st)
  | n + 1, st =>
    match fs.Pop st id name queue with
    | (.ok c, st1) =>
      match popAll fs id name queue n st1 with
      | some r => some (c :: r.1, r.2)
      | none => none
    | (.error _, _) => none

/-- Names of the entries present in the directory at the path `q`; none
when there is no directory at that path. -/
def dirEntries (st : FS) (q : CleanPath) : List String :=
  match statPath st q with
  | .ok (.dir _) => childNames st (resolve st q)
  | _ => []

/-- Sample state with one message waiting in the incoming queue `mail` of
`bob`. -/
def sampleQueueFS : FS :=
  ⟨["home"], [(["tmp"], .dir 0o755), (["tmp", "store"], .dir 0o755),
    (["tmp", "store", "private"], .dir 0o700),
    (["tmp", "store", "private", "bob"], .dir 0o700),
    (["tmp", "store", "private", "bob", "incoming"], .dir 0o700),
    (["tmp", "store", "private", "bob", "incoming", "mail"], .dir 0o700),
    (["tmp", "store", "private", "bob", "incoming", "mail", "t0"], .file "x" 0o600),
    (["tmp", "store", "private", "bob", "incoming", "mail", "t1"], .file "y" 0o600)]⟩

/-! ## The bindings of a state -/

theorem findKey_dropKey_self (k : List String) (l : List (List String × Entry)) :
    findKey k (dropKey k l) = none := by
  induction l with
  | nil => rfl
  | cons a t ih =>
    by_cases h : a.1 = k <;> simp [dropKey, findKey, h, ih]

theorem findKey_dropKey_other (k k' : List String) (h : k' ≠ k)
    (l : List (List String × Entry)) :
    findKey k' (dropKey k l) = findKey k' l := by
  induction l with
  | nil => rfl
  | cons a t ih =>
    obtain ⟨a1, a2⟩ := a
    by_cases h1 : a1 = k
    · subst h1
      simp [dropKey, findKey, ih, Ne.symm h]
    · by_cases h2 : a1 = k'
      · subst h2
        simp [dropKey, findKey, h1]
      · simp [dropKey, findKey, h1, h2, ih]

theorem lookup_set_other (st : FS) (k k' : List String) (e : Entry) (h : k' ≠ k) :
    lookup (st.set k e) k' = lookup st k' := by
  simp [lookup, FS.set, findKey, Ne.symm h, findKey_dropKey_other k k' h]

theorem lookup_set_self (st : FS) (k : List String) (e : Entry) (h : ¬ k <+: st.cwd) :
    lookup (st.set k e) k = some e := by
  simp [lookup, FS.set, findKey, h]

theorem lookup_remove_other (st : FS) (k k' : List String) (h : k' ≠ k) :
    lookup (st.remove k) k' = lookup st k' := by
  simp [lookup, FS.remove, findKey_dropKey_other k k' h]

theorem lookup_remove_self (st : FS) (k : List String) (h : ¬ k <+: st.cwd) :
    lookup (st.remove k) k = none := by
  simp [lookup, FS.remove, findKey_dropKey_self, h]

/-- Walking one more component. -/
theorem walk_snoc (st : FS) (ks : List String) (c : String) (pre : List String) :
    walk st pre (ks ++ [c]) =
      match walk st pre ks with
      | .ok (.dir _) =>
        if refused st (pre ++ ks) c = true then .error .ENAMETOOLONG
        else
          (match lookup st (pre ++ ks ++ [c]) with
           | some e => .ok e
           | none => .error .ENOENT)
      | .ok (.file _ _) => .error .ENOTDIR
      | .error n => .error n := by
  induction ks generalizing pre with
  | nil =>
    simp only [List.nil_append, walk, List.append_nil]
    cases h : lookup st pre with
    | none => rfl
    | some e =>
      cases e with
      | file c0 m => rfl
      | dir m =>
        by_cases hr : refused st pre c = true
        · simp [hr]
        · simp [hr]
  | cons a t ih =>
    simp only [List.cons_append, walk]
    cases h : lookup st pre with
    | none => rfl
    | some e =>
      cases e with
      | file c0 m => rfl
      | dir m =>
        by_cases hr : refused st pre a = true
        · simp [hr]
        · have := ih (pre ++ [a])
          simpa [List.append_assoc, hr] using this

/-- A walk sees only the nodes on its way. -/
theorem walk_congr (st st1 : FS) (ks pre : List String) (hc : st1.cwd = st.cwd)
    (h : ∀ p, p <+: ks → lookup st1 (pre ++ p) = lookup st (pre ++ p)) :
    walk st1 pre ks = walk st pre ks := by
  induction ks generalizing pre with
  | nil =>
    have := h [] (List.nil_prefix)
    simp only [List.append_nil] at this
    simp [walk, this]
  | cons a t ih =>
    have h0 := h [] (List.nil_prefix)
    simp only [List.append_nil] at h0
    have ih1 := ih (pre ++ [a]) (fun p hp => by
      have := h (a :: p) (by simpa using hp)
      simpa using this)
    simp [walk, h0, ih1, refused, hc]

theorem walk_ok_lookup (st : FS) (ks pre : List String) (e : Entry)
    (h : walk st pre ks = .ok e) : lookup st (pre ++ ks) = some e := by
  induction ks generalizing pre with
  | nil =>
    simp only [walk] at h
    cases h1 : lookup st pre with
    | none => simp [h1] at h
    | some x => simp [h1] at h; simp [h1, h]
  | cons a t ih =>
    simp only [walk] at h
    cases h1 : lookup st pre with
    | none => simp [h1] at h
    | some x =>
      cases x with
      | file c m => simp [h1] at h
      | dir m =>
        simp only [h1] at h
        by_cases hr : refused st pre a = true
        · simp [hr] at h
        · simp only [hr, if_false] at h
          have := ih _ h
          simpa using this

theorem sysStat_snoc (st : FS) (k : List String) (c : String) :
    sysStat st (k ++ [c]) =
      match sysStat st k with
      | .ok (.dir _) =>
        if refused st k c = true then .error .ENAMETOOLONG
        else
          (match lookup st (k ++ [c]) with
           | some e => .ok e
           | none => .error .ENOENT)
      | .ok (.file _ _) => .error .ENOTDIR
      | .error n => .error n := by
  have := walk_snoc st k c []
  simpa [sysStat] using this

theorem sysStat_ok_lookup (st : FS) (k : List String) (e : Entry)
    (h : sysStat st k = .ok e) : lookup st k = some e := by
  have := walk_ok_lookup st k [] e h
  simpa using this

theorem lookup_nil (st : FS) : lookup st [] = some (.dir 0o755) := by
  simp [lookup]

theorem sysStat_nil (st : FS) : sysStat st [] = .ok (.dir 0o755) := by
  simp [sysStat, walk, lookup]

/-- Paths that do not pass through `k` are looked up alike after `k` is
rebound. -/
theorem sysStat_set_frame (st : FS) (k k' : List String) (e : Entry)
    (h : ¬ k <+: k') : sysStat (st.set k e) k' = sysStat st k' := by
  refine walk_congr st (st.set k e) k' [] rfl (fun p hp => ?_)
  simp only [List.nil_append]
  apply lookup_set_other
  intro hpk
  exact h (hpk ▸ hp)

theorem sysStat_remove_frame (st : FS) (k k' : List String)
    (h : ¬ k <+: k') : sysStat (st.remove k) k' = sysStat st k' := by
  refine walk_congr st (st.remove k) k' [] rfl (fun p hp => ?_)
  simp only [List.nil_append]
  apply lookup_remove_other
  intro hpk
  exact h (hpk ▸ hp)

theorem snoc_prefix_absurd (P : List String) (c : String) : ¬ (P ++ [c]) <+: P := by
  intro hp
  have h1 := hp.length_le
  simp at h1

/-- After a name is bound below a directory, `stat` finds the new node. -/
theorem sysStat_set_self (st : FS) (P : List String) (c : String) (e : Entry) (m : Nat)
    (hcwd : ¬ (P ++ [c]) <+: st.cwd) (hr : refused st P c = false)
    (hpar : sysStat st P = .ok (.dir m)) :
    sysStat (st.set (P ++ [c]) e) (P ++ [c]) = .ok e := by
  have hfr := sysStat_set_frame st (P ++ [c]) P e (snoc_prefix_absurd P c)
  have hl := lookup_set_self st (P ++ [c]) e hcwd
  have hr2 : refused (st.set (P ++ [c]) e) P c = false := hr
  rw [sysStat_snoc, hfr, hpar]
  simp only [hr2]
  rw [hl]
  simp

/-- The parent of a node that `stat` finds is a directory, and the name of
the node is not refused. -/
theorem sysStat_parent (st : FS) (P : List String) (c : String) (e : Entry)
    (h : sysStat st (P ++ [c]) = .ok e) :
    (∃ m, sysStat st P = .ok (.dir m)) ∧ refused st P c = false := by
  rw [sysStat_snoc] at h
  cases h1 : sysStat st P with
  | error n => simp [h1] at h
  | ok x =>
    cases x with
    | file c m => simp [h1] at h
    | dir m =>
      simp only [h1] at h
      by_cases hr : refused st P c = true
      · simp [hr] at h
      · exact ⟨⟨m, rfl⟩, by simpa using hr⟩

/-- A free name in a directory: `stat` answers that there is no such
file exactly when the name is not refused. -/
theorem sysStat_enoent_child (st : FS) (P : List String) (c : String) (m : Nat)
    (hpar : sysStat st P = .ok (.dir m)) (h : sysStat st (P ++ [c]) = .error .ENOENT) :
    lookup st (P ++ [c]) = none ∧ refused st P c = false := by
  rw [sysStat_snoc, hpar] at h
  simp only at h
  by_cases hr : refused st P c = true
  · simp [hr] at h
  · simp only [hr, if_false] at h
    cases hl : lookup st (P ++ [c]) with
    | none => exact ⟨rfl, by simpa using hr⟩
    | some x => simp [hl] at h

theorem not_prefix_cwd_of_lookup_file (st : FS) (k : List String) (c : String) (m : Nat)
    (h : lookup st k = some (.file c m)) : ¬ k <+: st.cwd := by
  intro hp
  simp [lookup, hp] at h

theorem not_prefix_cwd_of_lookup_none (st : FS) (k : List String)
    (h : lookup st k = none) : ¬ k <+: st.cwd := by
  intro hp
  simp [lookup, hp] at h

theorem walk_cwd (st : FS) (ks pre : List String) (h : (pre ++ ks) <+: st.cwd) :
    walk st pre ks = .ok (.dir 0o755) := by
  induction ks generalizing pre with
  | nil => simp at h; simp [walk, lookup, h]
  | cons a t ih =>
    have hp : pre <+: st.cwd := (List.prefix_append pre (a :: t)).trans h
    have hpa : (pre ++ [a]) <+: st.cwd :=
      (List.prefix_append (pre ++ [a]) t).trans (by simpa using h)
    have := ih (pre ++ [a]) (by simpa using h)
    simp [walk, lookup, hp, this, refused, hpa]

theorem sysStat_cwd (st : FS) (k : List String) (h : k <+: st.cwd) :
    sysStat st k = .ok (.dir 0o755) :=
  walk_cwd st k [] (by simpa using h)

theorem not_cwd_of_sysStat_error (st : FS) (k : List String) (n : Errno)
    (h : sysStat st k = .error n) : ¬ k <+: st.cwd := by
  intro hp
  rw [sysStat_cwd st k hp] at h
  cases h

theorem not_cwd_of_sysStat_file (st : FS) (k : List String) (c : String) (m : Nat)
    (h : sysStat st k = .ok (.file c m)) : ¬ k <+: st.cwd := by
  intro hp
  rw [sysStat_cwd st k hp] at h
  cases h

theorem resolve_set (st : FS) (k : List String) (e : Entry) (q : CleanPath) :
    resolve (st.set k e) q = resolve st q := rfl

theorem resolve_remove (st : FS) (k : List String) (q : CleanPath) :
    resolve (st.remove k) q = resolve st q := rfl

theorem resolve_cwd (st st1 : FS) (p : CleanPath) (h : st1.cwd = st.cwd) :
    resolve st1 p = resolve st p := by
  simp [resolve, h]

theorem statPath_cwd (st st1 : FS) (p : CleanPath) (h : st1.cwd = st.cwd)
    (hs : sysStat st1 (resolve st p) = sysStat st (resolve st p)) :
    statPath st1 p = statPath st p := by
  simp only [statPath, resolve_cwd st st1 p h, hs]

theorem statPath_ok (st : FS) (q : CleanPath) (e : Entry) (h : statPath st q = .ok e) :
    pathErr q = none ∧ sysStat st (resolve st q) = .ok e := by
  unfold statPath at h
  cases hp : pathErr q with
  | some n => simp [hp] at h
  | none => simp only [hp] at h; exact ⟨rfl, h⟩

theorem statPath_enoent (st : FS) (q : CleanPath) (h : statPath st q = .error .ENOENT) :
    pathErr q = none ∧ sysStat st (resolve st q) = .error .ENOENT := by
  unfold statPath at h
  cases hp : pathErr q with
  | some n =>
    simp only [hp, Except.error.injEq] at h
    subst h
    unfold pathErr at hp
    split at hp
    · cases hp
    · split at hp <;> cases hp
  | none => simp only [hp] at h; exact ⟨rfl, h⟩

theorem statPath_of (st : FS) (q : CleanPath) (h : pathErr q = none) :
    statPath st q = sysStat st (resolve st q) := by
  simp [statPath, h]

/-- What a successful `WriteFile` did: the path names an entry of an
existing directory, which is now a file with the content written; the
permission bits are those given when the file is new. -/
theorem WriteFile_ok (st st1 : FS) (q : CleanPath) (c : String) (mode : Nat)
    (h : WriteFile st (some q) c mode = .ok st1) :
    pathErr q = none ∧
    ∃ P n m, resolve st q = P ++ [n] ∧ st1 = st.set (P ++ [n]) (.file c m) ∧
      (∃ md, sysStat st P = .ok (.dir md)) ∧ ¬ (P ++ [n]) <+: st.cwd ∧
      refused st P n = false ∧
      ((∃ old, sysStat st (P ++ [n]) = .ok (.file old m)) ∨
        (lookup st (P ++ [n]) = none ∧ m = mode)) := by
  unfold WriteFile at h
  simp only at h
  cases h1 : statPath st q with
  | ok x =>
    obtain ⟨hp, hs⟩ := statPath_ok st q x h1
    refine ⟨hp, ?_⟩
    cases x with
    | dir m => simp [h1] at h
    | file old m =>
      simp only [h1, Except.ok.injEq] at h
      rcases List.eq_nil_or_concat (resolve st q) with h0 | ⟨P, n, h0⟩
      · rw [h0, sysStat_nil] at hs; cases hs
      · rw [List.concat_eq_append] at h0
        rw [h0] at hs h
        obtain ⟨hpar, hr⟩ := sysStat_parent st P n _ hs
        exact ⟨P, n, m, h0, h.symm, hpar, not_cwd_of_sysStat_file st _ _ _ hs, hr,
          Or.inl ⟨old, hs⟩⟩
  | error e =>
    cases e with
    | ENOENT =>
      obtain ⟨hp, hs⟩ := statPath_enoent st q h1
      refine ⟨hp, ?_⟩
      simp only [h1] at h
      rcases List.eq_nil_or_concat (resolve st q) with h0 | ⟨P, n, h0⟩
      · rw [h0, sysStat_nil] at hs; cases hs
      · rw [List.concat_eq_append] at h0
        rw [h0] at hs
        simp only [h0, List.dropLast_concat] at h
        cases h2 : sysStat st P with
        | error e2 => simp [h2] at h
        | ok x =>
          cases x with
          | file c2 m2 => simp [h2] at h
          | dir md =>
            simp only [h2, Except.ok.injEq] at h
            obtain ⟨hl, hr⟩ := sysStat_enoent_child st P n md h2 hs
            exact ⟨P, n, mode, h0, h.symm, ⟨md, h2⟩,
              not_prefix_cwd_of_lookup_none st _ hl, hr, Or.inr ⟨hl, rfl⟩⟩
    | ENOTDIR => simp [h1] at h
    | EISDIR => simp [h1] at h
    | EEXIST => simp [h1] at h
    | ENOTEMPTY => simp [h1] at h
    | ENAMETOOLONG => simp [h1] at h
    | EINVAL => simp [h1] at h

/-- Reading back what `WriteFile` wrote. -/
theorem ReadFile_WriteFile (st st1 : FS) (p : GoPath) (c : String) (mode : Nat)
    (h : WriteFile st p c mode = .ok st1) : ReadFile st1 p = .ok c := by
  cases p with
  | none => simp [WriteFile] at h
  | some q =>
    obtain ⟨hp, P, n, m, h0, h1, ⟨md, h2⟩, h3, hr, _⟩ := WriteFile_ok st st1 q c mode h
    subst h1
    simp only [ReadFile, statPath, hp, resolve_set, h0]
    rw [sysStat_set_self st P n _ md h3 hr h2]

theorem dropWhile_empty_append (l es : List String)
    (h : l.dropWhile (fun e => decide (e = "")) ≠ []) :
    (l ++ es).dropWhile (fun e => decide (e = "")) =
      l.dropWhile (fun e => decide (e = "")) ++ es := by
  induction l with
  | nil => simp at h
  | cons a t ih =>
    by_cases ha : a = ""
    · simp only [List.dropWhile, ha, decide_True, List.cons_append] at h ⊢
      exact ih h
    · simp [List.dropWhile, ha]

/-- Joining further elements to the result of a `Join`. -/
theorem JoinP_Join (l es : List String) (q : CleanPath) (h : Join l = some q) :
    JoinP (Join l) es = Join (l ++ es) := by
  unfold Join at h
  cases hd : l.dropWhile (fun e => decide (e = "")) with
  | nil => simp [hd] at h
  | cons e t =>
    have := dropWhile_empty_append l es (by simp [hd])
    simp only [Join, this, hd, JoinP, List.cons_append]
    simp [CleanPath.join, List.foldl_append]

theorem Join_some (l : List String) (e : String) (he : e ∈ l) (hne : e ≠ "") :
    ∃ q, Join l = some q := by
  unfold Join
  cases hd : l.dropWhile (fun e => decide (e = "")) with
  | nil =>
    rw [List.dropWhile_eq_nil_iff] at hd
    have := hd e he
    simp [hne] at this
  | cons a t => exact ⟨_, rfl⟩

/-- What a successful `Mkdir` did. -/
theorem Mkdir_ok (st st2 : FS) (p : CleanPath) (mode : Nat)
    (h : Mkdir st (some p) mode = .ok st2) :
    pathErr p = none ∧
    ∃ P c m, resolve st p = P ++ [c] ∧ lookup st (P ++ [c]) = none ∧
      refused st P c = false ∧
      sysStat st P = .ok (.dir m) ∧ st2 = st.set (P ++ [c]) (.dir mode) := by
  unfold Mkdir at h
  simp only at h
  cases h1 : statPath st p with
  | ok x => simp [h1] at h
  | error e =>
    cases e with
    | ENOENT =>
      obtain ⟨hp, hs⟩ := statPath_enoent st p h1
      refine ⟨hp, ?_⟩
      simp only [h1] at h
      rcases List.eq_nil_or_concat (resolve st p) with h0 | ⟨P, c, h0⟩
      · rw [h0, sysStat_nil] at hs; cases hs
      · rw [List.concat_eq_append] at h0
        rw [h0] at hs
        simp only [h0, List.dropLast_concat] at h
        cases h2 : sysStat st P with
        | error e2 => simp [h2] at h
        | ok x =>
          cases x with
          | file c2 m2 => simp [h2] at h
          | dir md =>
            simp only [h2, Except.ok.injEq] at h
            obtain ⟨hl, hr⟩ := sysStat_enoent_child st P c md h2 hs
            exact ⟨P, c, md, h0, hl, hr, h2, h.symm⟩
    | ENOTDIR => simp [h1] at h
    | EISDIR => simp [h1] at h
    | EEXIST => simp [h1] at h
    | ENOTEMPTY => simp [h1] at h
    | ENAMETOOLONG => simp [h1] at h
    | EINVAL => simp [h1] at h

theorem childName?_eq_some (d k : List String) (n : String) :
    childName? d k = some n ↔ k = d ++ [n] := by
  induction d generalizing k with
  | nil =>
    cases k with
    | nil => simp [childName?]
    | cons a t =>
      cases t with
      | nil => simp [childName?]
      | cons b u => simp [childName?]
  | cons a d ih =>
    cases k with
    | nil => simp [childName?]
    | cons b t =>
      by_cases h : a = b
      · subst h; simp [childName?, ih]
      · simp [childName?, h]
        intro h1; exact absurd h1.symm h

theorem findKey_ne_none_iff (k : List String) (l : List (List String × Entry)) :
    findKey k l ≠ none ↔ k ∈ l.map Prod.fst := by
  induction l with
  | nil => simp [findKey]
  | cons a t ih =>
    by_cases h : a.1 = k
    · simp [findKey, h]
    · simp only [findKey, h, if_false, ih, List.map_cons, List.mem_cons]
      constructor
      · intro h1; exact Or.inr h1
      · rintro (h1 | h1)
        · exact absurd h1.symm h
        · exact h1

theorem lookup_ne_none_iff (st : FS) (k : List String) :
    lookup st k ≠ none ↔ k ∈ allKeys st := by
  unfold lookup allKeys
  by_cases h : k <+: st.cwd
  · simp [h, List.mem_inits]
  · simp only [h, if_false, findKey_ne_none_iff, List.mem_append, List.mem_inits, false_or]

/-- The names of a directory are those under which something is found. -/
theorem mem_childNames (st : FS) (d : List String) (n : String) :
    n ∈ childNames st d ↔ lookup st (d ++ [n]) ≠ none := by
  unfold childNames
  rw [List.mem_dedup, List.mem_filterMap, lookup_ne_none_iff]
  constructor
  · rintro ⟨k, hk, hc⟩
    rw [childName?_eq_some] at hc
    exact hc ▸ hk
  · intro h
    exact ⟨d ++ [n], h, (childName?_eq_some _ _ _).2 rfl⟩

theorem nodup_childNames (st : FS) (d : List String) : (childNames st d).Nodup :=
  List.nodup_dedup _

theorem char_eq_of_toNat (a b : Char) (h : a.toNat = b.toNat) : a = b := by
  apply Char.ext
  apply UInt32.ext
  exact h

theorem leChars_total (a b : List Char) : leChars a b = true ∨ leChars b a = true := by
  induction a generalizing b with
  | nil => simp [leChars]
  | cons x xs ih =>
    cases b with
    | nil => simp [leChars]
    | cons y ys =>
      simp only [leChars]
      by_cases h1 : x.toNat < y.toNat
      · simp [h1]
      · by_cases h2 : y.toNat < x.toNat
        · simp [h1, h2]
        · simp only [h1, h2, if_false]
          exact ih ys

theorem leChars_antisymm (a b : List Char) (h1 : leChars a b = true)
    (h2 : leChars b a = true) : a = b := by
  induction a generalizing b with
  | nil =>
    cases b with
    | nil => rfl
    | cons y ys => simp [leChars] at h2
  | cons x xs ih =>
    cases b with
    | nil => simp [leChars] at h1
    | cons y ys =>
      simp only [leChars] at h1 h2
      by_cases h3 : x.toNat < y.toNat
      · have : ¬ y.toNat < x.toNat := by omega
        simp [h3, this] at h2
      · by_cases h4 : y.toNat < x.toNat
        · simp [h3, h4] at h1
        · simp only [h3, h4, if_false] at h1 h2
          have hxy : x = y := char_eq_of_toNat x y (by omega)
          rw [hxy, ih ys h1 h2]

theorem leChars_trans (a b c : List Char) (h1 : leChars a b = true)
    (h2 : leChars b c = true) : leChars a c = true := by
  induction a generalizing b c with
  | nil => simp [leChars]
  | cons x xs ih =>
    cases b with
    | nil => simp [leChars] at h1
    | cons y ys =>
      cases c with
      | nil => simp [leChars] at h2
      | cons z zs =>
        simp only [leChars] at h1 h2 ⊢
        by_cases hxy : x.toNat < y.toNat
        · by_cases hyz : y.toNat < z.toNat
          · have : x.toNat < z.toNat := by omega
            simp [this]
          · by_cases hzy : z.toNat < y.toNat
            · simp [hyz, hzy] at h2
            · have : x.toNat < z.toNat := by omega
              simp [this]
        · by_cases hyx : y.toNat < x.toNat
          · simp [hxy, hyx] at h1
          · simp only [hxy, hyx, if_false] at h1
            by_cases hyz : y.toNat < z.toNat
            · have : x.toNat < z.toNat := by omega
              simp [this]
            · by_cases hzy : z.toNat < y.toNat
              · simp [hyz, hzy] at h2
              · simp only [hyz, hzy, if_false] at h2
                have a1 : ¬ x.toNat < z.toNat := by omega
                have a2 : ¬ z.toNat < x.toNat := by omega
                simp only [a1, a2, if_false]
                exact ih ys zs h1 h2

instance : IsTotal String nameLe := ⟨fun a b => leChars_total a.data b.data⟩

instance : IsTrans String nameLe := ⟨fun a b c => leChars_trans a.data b.data c.data⟩

instance : IsAntisymm String nameLe :=
  ⟨fun a b h1 h2 => String.ext (leChars_antisymm a.data b.data h1 h2)⟩

theorem nameLe_refl (a : String) : nameLe a a := by
  rcases leChars_total a.data a.data with h | h <;> exact h

/-- Two duplicate-free sorted lists of names with the same members are
the same list. -/
theorem sorted_names_unique (l1 l2 : List String) (s1 : l1.Sorted nameLe)
    (s2 : l2.Sorted nameLe) (n1 : l1.Nodup) (n2 : l2.Nodup)
    (h : ∀ n, n ∈ l1 ↔ n ∈ l2) : l1 = l2 :=
  List.eq_of_perm_of_sorted ((List.perm_ext_iff_of_nodup n1 n2).2 h) s1 s2

theorem sorted_sortedNames (st : FS) (d : List String) :
    (sortedNames st d).Sorted nameLe :=
  List.sorted_insertionSort nameLe _

theorem nodup_sortedNames (st : FS) (d : List String) : (sortedNames st d).Nodup :=
  (List.perm_insertionSort nameLe _).nodup_iff.2 (nodup_childNames st d)

theorem mem_sortedNames (st : FS) (d : List String) (n : String) :
    n ∈ sortedNames st d ↔ lookup st (d ++ [n]) ≠ none := by
  rw [← mem_childNames]
  exact (List.perm_insertionSort nameLe _).mem_iff

theorem length_sortedNames (st : FS) (d : List String) :
    (sortedNames st d).length = (childNames st d).length :=
  List.length_insertionSort nameLe _

/-- The sorted names of a directory are determined by which names are
bound in it. -/
theorem sortedNames_eq (st : FS) (d : List String) (l : List String)
    (s : l.Sorted nameLe) (nd : l.Nodup)
    (h : ∀ n, n ∈ l ↔ lookup st (d ++ [n]) ≠ none) : sortedNames st d = l :=
  sorted_names_unique _ _ (sorted_sortedNames st d) s (nodup_sortedNames st d) nd
    (fun n => by rw [mem_sortedNames, h])

theorem splitSep_no_sep (l : List Char) (h : '/' ∉ l) : splitSep l = [l] := by
  induction l with
  | nil => rfl
  | cons c cs ih =>
    have hc : c ≠ '/' := fun e => h (by simp [e])
    have hcs : '/' ∉ cs := fun e => h (by simp [e])
    simp [splitSep, hc, ih hcs]

theorem elemComps_plain (n : String) (h : plainName n) : elemComps n = [n] := by
  simp [elemComps, splitSep_no_sep n.data h.2.2.2]

theorem cleanStep_plain (rooted : Bool) (out : List String) (n : String)
    (h : plainName n) : cleanStep rooted out n = out ++ [n] := by
  simp [cleanStep, h.1, h.2.1, h.2.2.1]

/-- Joining an ordinary name appends it. -/
theorem join_plain (q : CleanPath) (n : String) (h : plainName n) :
    q.join [n] = ⟨q.rooted, q.comps ++ [n]⟩ := by
  simp [CleanPath.join, elemComps_plain n h, cleanStep_plain _ _ n h]

theorem walkStep_plain (out : List String) (n : String) (h : plainName n) :
    walkStep out n = out ++ [n] := by
  simp [walkStep, h.1, h.2.1, h.2.2.1]

theorem resolve_snoc (st : FS) (q : CleanPath) (n : String) (h : plainName n) :
    resolve st ⟨q.rooted, q.comps ++ [n]⟩ = resolve st q ++ [n] := by
  simp [resolve, List.foldl_append, walkStep_plain _ n h]

theorem foldl_walkStep_down (d out : List String) (h : ∀ c ∈ d, plainName c) :
    d.foldl walkStep out = out ++ d := by
  induction d generalizing out with
  | nil => simp
  | cons a t ih =>
    simp only [List.foldl_cons]
    rw [walkStep_plain _ a (h a (by simp)), ih _ (fun c hc => h c (by simp [hc]))]
    simp

theorem resolve_down (st : FS) (r : Bool) (pre d : List String)
    (h : ∀ c ∈ d, plainName c) :
    resolve st ⟨r, pre ++ d⟩ = resolve st ⟨r, pre⟩ ++ d := by
  simp [resolve, List.foldl_append, foldl_walkStep_down d _ h]

/-- What a successful `Mkdir` did. -/
theorem splitSep_mem_no_sep (l p : List Char) (h : p ∈ splitSep l) : '/' ∉ p := by
  induction l generalizing p with
  | nil => simp [splitSep] at h; simp [h]
  | cons c cs ih =>
    by_cases hc : c = '/'
    · simp only [splitSep, hc, if_true, List.mem_cons] at h
      rcases h with h | h
      · simp [h]
      · exact ih p h
    · simp only [splitSep, hc, if_false] at h
      cases hs : splitSep cs with
      | nil => simp [hs] at h; simp [h, Ne.symm hc]
      | cons a t =>
        simp only [hs, List.mem_cons] at h
        rcases h with h | h
        · have := ih a (by simp [hs])
          simp [h, Ne.symm hc, this]
        · exact ih p (by simp [hs, h])

theorem elemComps_no_sep (e c : String) (h : c ∈ elemComps e) : '/' ∉ c.data := by
  simp only [elemComps, List.mem_map] at h
  obtain ⟨p, hp, rfl⟩ := h
  exact splitSep_mem_no_sep _ _ hp

theorem Shape_nil (r : Bool) : Shape r [] := ⟨0, [], by simp, by simp, fun _ => rfl⟩

theorem Shape_cleanStep (r : Bool) (out : List String) (c : String)
    (hs : Shape r out) (hc : '/' ∉ c.data) : Shape r (cleanStep r out c) := by
  obtain ⟨j, d, ho, hd, hr⟩ := hs
  unfold cleanStep
  by_cases h1 : c = "" ∨ c = "."
  · simp only [h1, if_true]; exact ⟨j, d, ho, hd, hr⟩
  · simp only [h1, if_false]
    by_cases h2 : c = ".."
    · simp only [h2, if_true]
      rcases List.eq_nil_or_concat d with hdn | ⟨d', l, hdl⟩
      · subst hdn
        simp only [List.append_nil] at ho
        cases j with
        | zero =>
          subst ho
          simp only [List.replicate_zero, List.getLast?_nil]
          cases r with
          | true => exact Shape_nil true
          | false => exact ⟨1, [], by simp, by simp, by simp⟩
        | succ j =>
          have hl : out.getLast? = some ".." := by
            rw [ho, List.replicate_succ']; simp
          have hrf : r = false := by
            cases r with
            | true => have := hr rfl; omega
            | false => rfl
          simp only [hl, if_true]
          refine ⟨j + 2, [], ?_, by simp, by simp [hrf]⟩
          rw [ho, List.append_nil, List.replicate_succ' (j + 1)]
      · rw [List.concat_eq_append] at hdl
        subst hdl
        have hvl : plainName l := hd l (by simp)
        have hl : out.getLast? = some l := by rw [ho, ← List.append_assoc]; simp
        simp only [hl, hvl.2.2.1, if_false]
        refine ⟨j, d', ?_, fun x hx => hd x (by simp [hx]), hr⟩
        rw [ho, ← List.append_assoc, List.dropLast_concat]
    · simp only [h2, if_false]
      refine ⟨j, d ++ [c], by rw [ho, List.append_assoc], ?_, hr⟩
      intro x hx
      simp only [List.mem_append, List.mem_singleton] at hx
      rcases hx with hx | hx
      · exact hd x hx
      · subst hx
        exact ⟨fun e => h1 (Or.inl e), fun e => h1 (Or.inr e), h2, hc⟩

theorem Shape_foldl (r : Bool) (cs out : List String) (hs : Shape r out)
    (hc : ∀ c ∈ cs, '/' ∉ c.data) : Shape r (cs.foldl (cleanStep r) out) := by
  induction cs generalizing out with
  | nil => exact hs
  | cons a t ih =>
    simp only [List.foldl_cons]
    exact ih _ (Shape_cleanStep r out a hs (hc a (by simp))) (fun c h => hc c (by simp [h]))

/-- The paths `Join` returns are clean. -/
theorem Shape_Join (l : List String) (q : CleanPath) (h : Join l = some q) :
    Shape q.rooted q.comps := by
  unfold Join at h
  cases hd : l.dropWhile (fun e => decide (e = "")) with
  | nil => simp [hd] at h
  | cons e t =>
    simp only [hd, Option.some.injEq] at h
    subst h
    simp only [CleanPath.join]
    apply Shape_foldl _ _ _ (Shape_nil _)
    intro c hc
    simp only [List.mem_flatMap] at hc
    obtain ⟨x, _, hx⟩ := hc
    exact elemComps_no_sep x c hx

theorem foldl_walkStep_up (j : Nat) (out : List String) :
    (List.replicate j "..").foldl walkStep out <+: out := by
  induction j generalizing out with
  | zero => simp
  | succ j ih =>
    simp only [List.replicate_succ, List.foldl_cons]
    have : walkStep out ".." = out.dropLast := by simp [walkStep]
    rw [this]
    exact (ih _).trans (List.dropLast_prefix out)


theorem validName_plain (n : String) (h : validName n) : plainName n := h.1

theorem refused_valid (st : FS) (P : List String) (n : String) (h : validName n) :
    refused st P n = false := by
  simp [refused, h.2.2]

theorem DirsMade_refl (st : FS) (K : List String) (mode : Nat) : DirsMade st st K mode :=
  ⟨rfl, fun _ => Or.inl rfl⟩

theorem DirsMade_mono (st st1 : FS) (K : List String) (c : String) (mode : Nat)
    (h1 : DirsMade st st1 K mode) : DirsMade st st1 (K ++ [c]) mode := by
  obtain ⟨hc, hfr⟩ := h1
  refine ⟨hc, fun k => ?_⟩
  rcases hfr k with h | ⟨a, b, c1⟩
  · exact Or.inl h
  · exact Or.inr ⟨a, b.trans (List.prefix_append K [c]), c1⟩

/-- After a successful `Mkdir` the path is a directory. -/
theorem Mkdir_dir (st st2 : FS) (p : CleanPath) (mode : Nat)
    (h : Mkdir st (some p) mode = .ok st2) : statPath st2 p = .ok (.dir mode) := by
  obtain ⟨hp, P, c, m, e1, e2, e3, e4, e5⟩ := Mkdir_ok st st2 p mode h
  subst e5
  rw [statPath_of _ _ hp, resolve_set, e1]
  exact sysStat_set_self st P c _ m (not_prefix_cwd_of_lookup_none st _ e2) e3 e4

/-- `MkdirAll` one level further down. -/
theorem DirsMade_step (st st1 st2 : FS) (K : List String) (c : String) (mode : Nat)
    (p : CleanPath) (hr : resolve st p = K ++ [c])
    (h1 : DirsMade st st1 K mode) (h2 : Mkdir st1 (some p) mode = .ok st2) :
    DirsMade st st2 (K ++ [c]) mode := by
  obtain ⟨hc, hfr⟩ := h1
  obtain ⟨_, P, c', m, e1, e2, _, _, e5⟩ := Mkdir_ok st1 st2 p mode h2
  rw [resolve_cwd st st1 p hc, hr] at e1
  rw [← e1] at e2 e5
  subst e5
  have hnc : ¬ (K ++ [c]) <+: st1.cwd := not_prefix_cwd_of_lookup_none st1 _ e2
  refine ⟨hc, fun k => ?_⟩
  by_cases hk : k = K ++ [c]
  · subst hk
    right
    refine ⟨?_, List.prefix_refl _, lookup_set_self st1 _ _ hnc⟩
    rcases hfr (K ++ [c]) with h | ⟨h, _, _⟩
    · rw [← h, e2]
    · exact h
  · rw [lookup_set_other st1 _ k _ hk]
    rcases hfr k with h | ⟨a, b, c1⟩
    · exact Or.inl h
    · exact Or.inr ⟨a, b.trans (List.prefix_append K [c]), c1⟩

theorem Stat_ok_iff (st : FS) (p : CleanPath) (e : Entry) :
    Stat st (some p) = .ok e ↔ statPath st p = .ok e := by
  simp only [Stat]
  cases h : statPath st p with
  | ok x => simp
  | error n => simp

/-- A `Mkdir` on the way up from the working directory fails: the
directory is there. -/
theorem Mkdir_up_fails (st st2 : FS) (r : Bool) (j : Nat) (mode : Nat) :
    Mkdir st (some ⟨r, List.replicate j ".."⟩) mode ≠ .ok st2 := by
  intro h
  obtain ⟨_, P, c, m, e1, e2, _, _, _⟩ := Mkdir_ok st st2 _ mode h
  have hpre : resolve st ⟨r, List.replicate j ".."⟩ <+: st.cwd := by
    unfold resolve
    cases r with
    | true =>
      have := foldl_walkStep_up j []
      simp only [if_true]
      rw [List.prefix_nil.1 this]
      exact List.nil_prefix
    | false => simpa using foldl_walkStep_up j st.cwd
  rw [e1] at hpre
  exact not_prefix_cwd_of_lookup_none st _ e2 hpre

/-- `MkdirAll` of a path that only goes up changes nothing. -/
theorem mkdirAllRev_up (mode : Nat) (r : Bool) (st : FS) (j : Nat) :
    (mkdirAllRev mode r st (List.replicate j "..")).1 = st := by
  induction j with
  | zero =>
    simp only [List.replicate_zero, mkdirAllRev]
    cases hs : Stat st (some ⟨r, []⟩) with
    | ok x => cases x <;> rfl
    | error e =>
      simp only
      cases hm : Mkdir st (some ⟨r, []⟩) mode with
      | ok st2 => exact absurd hm (Mkdir_up_fails st st2 r 0 mode)
      | error e2 => rfl
  | succ j ih =>
    have hrev : (".." :: List.replicate j "..").reverse = List.replicate (j + 1) ".." := by
      rw [← List.replicate_succ, List.reverse_replicate]
    simp only [List.replicate_succ]
    rw [mkdirAllRev, hrev]
    cases hs : Stat st (some ⟨r, List.replicate (j + 1) ".."⟩) with
    | ok x => cases x <;> rfl
    | error e =>
      simp only
      have hin : (if List.replicate j ".." = [] then (st, none)
          else mkdirAllRev mode r st (List.replicate j "..")).1 = st := by
        split
        · rfl
        · exact ih
      rcases hpair : (if List.replicate j ".." = [] then ((st, none) : FS × Option PathError)
          else mkdirAllRev mode r st (List.replicate j "..")) with ⟨s0, err⟩
      rw [hpair] at hin
      simp only at hin
      subst hin
      cases err with
      | some e1 => rfl
      | none =>
        simp only
        cases hm : Mkdir s0 (some ⟨r, List.replicate (j + 1) ".."⟩) mode with
        | ok st2 => exact absurd hm (Mkdir_up_fails s0 st2 r (j + 1) mode)
        | error e2 =>
          simp only
          cases hs2 : Stat s0 (some ⟨r, List.replicate (j + 1) ".."⟩) with
          | ok x => cases x <;> rfl
          | error e3 => rfl

/-- A `MkdirAll` that succeeds leaves a directory at the path. -/
theorem mkdirAllRev_dir (mode : Nat) (r : Bool) (st : FS) (rc : List String)
    (h : (mkdirAllRev mode r st rc).2 = none) :
    ∃ m, statPath (mkdirAllRev mode r st rc).1 ⟨r, rc.reverse⟩ = .ok (.dir m) := by
  cases rc with
  | nil =>
    revert h
    simp only [mkdirAllRev, List.reverse_nil]
    cases hs : Stat st (some ⟨r, []⟩) with
    | ok x =>
      cases x with
      | dir m => intro _; exact ⟨m, (Stat_ok_iff _ _ _).1 hs⟩
      | file c m => intro h; cases h
    | error e =>
      simp only
      cases hm : Mkdir st (some ⟨r, []⟩) mode with
      | ok st2 => intro _; exact ⟨mode, Mkdir_dir st st2 _ mode hm⟩
      | error e2 => intro h; cases h
  | cons c rest =>
    revert h
    rw [mkdirAllRev]
    cases hs : Stat st (some ⟨r, (c :: rest).reverse⟩) with
    | ok x =>
      cases x with
      | dir m => intro _; exact ⟨m, (Stat_ok_iff _ _ _).1 hs⟩
      | file c0 m => intro h; cases h
    | error e =>
      simp only
      rcases hpair : (if rest = [] then ((st, none) : FS × Option PathError)
          else mkdirAllRev mode r st rest) with ⟨s0, err⟩
      cases err with
      | some e1 => intro h; cases h
      | none =>
        simp only
        cases hm : Mkdir s0 (some ⟨r, (c :: rest).reverse⟩) mode with
        | ok st2 => intro _; exact ⟨mode, Mkdir_dir s0 st2 _ mode hm⟩
        | error e2 =>
          simp only
          cases hs2 : Stat s0 (some ⟨r, (c :: rest).reverse⟩) with
          | error e3 => intro h; cases h
          | ok x =>
            cases x with
            | file c0 m => intro h; cases h
            | dir m => intro _; exact ⟨m, (Stat_ok_iff _ _ _).1 hs2⟩

/-- `MkdirAll` below an ancestor of the working directory, down the plain
names `rd.reverse`: whether it succeeds or not, it only makes directories
on the way. -/
theorem mkdirAllRev_frame (mode : Nat) (r : Bool) (st : FS) (j : Nat) :
    ∀ rd : List String, (∀ c ∈ rd, plainName c) →
      DirsMade st (mkdirAllRev mode r st (rd ++ List.replicate j "..")).1
        (resolve st ⟨r, List.replicate j ".."⟩ ++ rd.reverse) mode := by
  intro rd
  induction rd with
  | nil =>
    intro _
    simp only [List.nil_append]
    rw [mkdirAllRev_up]
    exact DirsMade_refl st _ mode
  | cons c rd ih =>
    intro hv
    have hvc : plainName c := hv c (by simp)
    have hvr : ∀ x ∈ rd, plainName x := fun x hx => hv x (by simp [hx])
    have hres : resolve st ⟨r, (c :: (rd ++ List.replicate j "..")).reverse⟩ =
        (resolve st ⟨r, List.replicate j ".."⟩ ++ rd.reverse) ++ [c] := by
      have : (c :: (rd ++ List.replicate j "..")).reverse =
          List.replicate j ".." ++ (rd.reverse ++ [c]) := by
        simp [List.reverse_replicate]
      rw [this, resolve_down st r _ (rd.reverse ++ [c])
        (by intro x hx; simp at hx; rcases hx with hx | hx; exact hvr x hx; exact hx ▸ hvc)]
      simp
    have hK : (c :: rd).reverse = rd.reverse ++ [c] := by simp
    rw [hK, ← List.append_assoc]
    show DirsMade st (mkdirAllRev mode r st (c :: (rd ++ List.replicate j ".."))).1 _ mode
    rw [mkdirAllRev]
    cases hs : Stat st (some ⟨r, (c :: (rd ++ List.replicate j "..")).reverse⟩) with
    | ok x => cases x <;> exact DirsMade_refl st _ mode
    | error e =>
      simp only
      have hin : DirsMade st (if rd ++ List.replicate j ".." = [] then
          ((st, none) : FS × Option PathError)
          else mkdirAllRev mode r st (rd ++ List.replicate j "..")).1
          (resolve st ⟨r, List.replicate j ".."⟩ ++ rd.reverse) mode := by
        split
        · exact DirsMade_refl st _ mode
        · exact ih hvr
      rcases hpair : (if rd ++ List.replicate j ".." = [] then
          ((st, none) : FS × Option PathError)
          else mkdirAllRev mode r st (rd ++ List.replicate j "..")) with ⟨s0, err⟩
      rw [hpair] at hin
      simp only at hin
      cases err with
      | some e1 => exact DirsMade_mono st s0 _ c mode hin
      | none =>
        simp only
        cases hm : Mkdir s0 (some ⟨r, (c :: (rd ++ List.replicate j "..")).reverse⟩) mode with
        | ok st2 => exact DirsMade_step st s0 st2 _ c mode _ hres hin hm
        | error e2 =>
          simp only
          cases hs2 : Stat s0 (some ⟨r, (c :: (rd ++ List.replicate j "..")).reverse⟩) with
          | ok x => cases x <;> exact DirsMade_mono st s0 _ c mode hin
          | error e3 => exact DirsMade_mono st s0 _ c mode hin

/-- `MkdirAll` of a path that `Join` returned only makes directories on
the way to it. -/
theorem MkdirAll_Join (st : FS) (l : List String) (q : CleanPath) (mode : Nat)
    (hq : Join l = some q) :
    DirsMade st (MkdirAll st (some q) mode).1 (resolve st q) mode := by
  obtain ⟨j, d, ho, hd, _⟩ := Shape_Join l q hq
  have hres : resolve st q = resolve st ⟨q.rooted, List.replicate j ".."⟩ ++ d := by
    rw [← resolve_down st q.rooted _ d hd, ← ho]
  have hrev : q.comps.reverse = d.reverse ++ List.replicate j ".." := by
    rw [ho, List.reverse_append, List.reverse_replicate]
  simp only [MkdirAll]
  rw [hrev, hres]
  have := mkdirAllRev_frame mode q.rooted st j d.reverse
    (fun c hc => hd c (by simpa using hc))
  simpa using this

/-- A `MkdirAll` that succeeds leaves a directory at the path. -/
theorem MkdirAll_dir (st : FS) (q : CleanPath) (mode : Nat)
    (h : (MkdirAll st (some q) mode).2 = none) :
    ∃ m, statPath (MkdirAll st (some q) mode).1 q = .ok (.dir m) := by
  simp only [MkdirAll] at h ⊢
  have := mkdirAllRev_dir mode q.rooted st q.comps.reverse h
  simpa using this

/-- Everything on the way to a node that `stat` finds is bound. -/
theorem lookup_prefix_of_sysStat (st : FS) (K : List String) :
    ∀ e, sysStat st K = .ok e → ∀ k, k <+: K → lookup st k ≠ none := by
  induction K using List.reverseRecOn with
  | nil =>
    intro e _ k hk
    have : k = [] := List.prefix_nil.1 hk
    subst this
    simp [lookup_nil]
  | append_singleton P c ih =>
    intro e h k hk
    rcases List.prefix_concat_iff.1 hk with h1 | h1
    · subst h1
      rw [sysStat_ok_lookup st _ e h]; simp
    · obtain ⟨⟨m, hp⟩, _⟩ := sysStat_parent st P c e h
      exact ih _ hp k h1

/-- Reading a path is not affected by changes that are all at or beneath
a directory `Kp` the path does not pass through. -/
theorem ReadFile_frame (st st2 : FS) (Kp : List String) (hc : st2.cwd = st.cwd)
    (hfr : ∀ k, ¬ Kp <+: k → lookup st2 k = lookup st k) (f : GoPath)
    (hf : ∀ g, f = some g → ¬ Kp <+: resolve st g) :
    ReadFile st2 f = ReadFile st f := by
  cases f with
  | none => rfl
  | some g =>
    have hs : sysStat st2 (resolve st g) = sysStat st (resolve st g) := by
      refine walk_congr st st2 (resolve st g) [] hc (fun p hp => ?_)
      simp only [List.nil_append]
      apply hfr
      intro hkp
      exact hf g rfl (hkp.trans hp)
    simp only [ReadFile, statPath_cwd st st2 g hc hs]

/-- What `SendPublic` may change, whether it succeeds or not: the file it
writes, and free paths on the way to its directory. -/
theorem SendPublic_frame (fs : FsAPI) (st : FS) (id name c : String) (d f : CleanPath)
    (hd : Join [fs.Path, publicPath, id] = some d)
    (hf : Join [fs.Path, publicPath, id, name] = some f) :
    (fs.SendPublic st id name c).2.cwd = st.cwd ∧
    ∀ k, lookup (fs.SendPublic st id name c).2 k = lookup st k ∨ k = resolve st f ∨
      (lookup st k = none ∧ k <+: resolve st d) := by
  have hdm := MkdirAll_Join st _ d publicDirMode hd
  have hj : JoinP (some d) [name] = some f := by
    rw [← hd, JoinP_Join _ [name] d hd]; exact hf
  unfold FsAPI.SendPublic
  simp only [hd, hj]
  rcases hm : MkdirAll st (some d) publicDirMode with ⟨s0, err⟩
  rw [hm] at hdm
  simp only at hdm
  have hbase : ∀ k, lookup s0 k = lookup st k ∨ k = resolve st f ∨
      (lookup st k = none ∧ k <+: resolve st d) := by
    intro k
    rcases hdm.2 k with h | ⟨h1, h2, _⟩
    · exact Or.inl h
    · exact Or.inr (Or.inr ⟨h1, h2⟩)
  cases err with
  | some e => exact ⟨hdm.1, hbase⟩
  | none =>
    simp only
    cases hw : WriteFile s0 (some f) c publicFileMode with
    | error e => exact ⟨hdm.1, hbase⟩
    | ok s2 =>
      simp only
      obtain ⟨_, P, x, m, e1, e2, _, _, _, _⟩ := WriteFile_ok s0 s2 f c _ hw
      rw [resolve_cwd st s0 f hdm.1] at e1
      subst e2
      refine ⟨hdm.1, fun k => ?_⟩
      by_cases hk : k = P ++ [x]
      · exact Or.inr (Or.inl (hk.trans e1.symm))
      · rw [lookup_set_other s0 _ k _ hk]
        exact hbase k

theorem validName_star : validName "*" := by decide

theorem Match_star (n : String) : Match "*" n = .ok (decide ('/' ∉ n.data)) := by
  have h1 : ("*" : String).length + 1 = 1 + 1 := by decide
  have h2 : ("*" : String).data = ['*'] := by decide
  unfold Match
  rw [h1, h2]
  simp [matchLoop, scanChunk, dropStars, scanLoop]

theorem hasMeta_star (r : Bool) (comps : List String) :
    hasMeta ⟨r, comps ++ ["*"]⟩ = true := by
  have : hasMetaStr "*" = true := by decide
  simp [hasMeta, this]

theorem scanLoop_plain (d : List Char) (h : ∀ c ∈ d, isMagic c = false) :
    scanLoop false false (d ++ ['*']) = (d, ['*']) := by
  induction d with
  | nil => simp [scanLoop]
  | cons c cs ih =>
    have hc := h c (by simp)
    simp only [isMagic, Bool.or_eq_false_iff, decide_eq_false_iff_not] at hc
    obtain ⟨⟨⟨h1, h2⟩, h3⟩, h4⟩ := hc
    have ih' := ih (fun x hx => h x (by simp [hx]))
    by_cases h5 : c = ']'
    · simp [scanLoop, h4, h3, h5, ih']
    · simp [scanLoop, h4, h3, h5, h1, ih']

theorem matchChunk_failed (chunk s : List Char) (h : ∀ c ∈ chunk, isMagic c = false) :
    ∀ f, chunk.length < f → matchChunk f true chunk s = .ok none := by
  induction chunk with
  | nil =>
    intro f hf
    cases f with
    | zero => simp at hf
    | succ f => simp [matchChunk]
  | cons c cs ih =>
    intro f hf
    cases f with
    | zero => simp at hf
    | succ f =>
      have hc := h c (by simp)
      simp only [isMagic, Bool.or_eq_false_iff, decide_eq_false_iff_not] at hc
      obtain ⟨⟨⟨h1, h2⟩, h3⟩, h4⟩ := hc
      have := ih (fun x hx => h x (by simp [hx])) f (by simpa using hf)
      rw [matchChunk.eq_def]
      simp [h2, h3, h4, this]

theorem matchChunk_empty_name (c : Char) (cs : List Char)
    (h : ∀ x ∈ c :: cs, isMagic x = false) :
    matchChunk ((c :: cs).length + 1) false (c :: cs) [] = .ok none := by
  have hc := h c (by simp)
  simp only [isMagic, Bool.or_eq_false_iff, decide_eq_false_iff_not] at hc
  obtain ⟨⟨⟨h1, h2⟩, h3⟩, h4⟩ := hc
  have := matchChunk_failed cs [] (fun x hx => h x (by simp [hx])) (cs.length + 1) (by simp)
  show matchChunk ((cs.length + 1) + 1) false (c :: cs) [] = .ok none
  rw [matchChunk.eq_def]
  simp [h2, h3, h4, this]

/-- A pattern that ends in a star after text without pattern characters
is well formed. -/
theorem Match_plain_star (d : List Char) (h : ∀ c ∈ d, isMagic c = false) :
    ∃ b, Match (String.mk (d ++ ['*'])) "" = .ok b := by
  have hlen : (String.mk (d ++ ['*'])).length + 1 = (d.length + 1) + 1 := by
    simp [String.length]
  unfold Match
  rw [hlen]
  cases d with
  | nil => exact ⟨true, by simp [matchLoop, scanChunk, dropStars, scanLoop]⟩
  | cons c cs =>
    have hc := h c (by simp)
    simp only [isMagic, Bool.or_eq_false_iff, decide_eq_false_iff_not] at hc
    obtain ⟨⟨⟨h1, h2⟩, h3⟩, h4⟩ := hc
    have hsl := scanLoop_plain (c :: cs) h
    have hmc := matchChunk_empty_name c cs h
    have hds : dropStars (c :: (cs ++ ['*'])) = (false, c :: (cs ++ ['*'])) := by
      simp [dropStars, h1]
    have hsc : scanChunk (c :: (cs ++ ['*'])) = (false, c :: cs, ['*']) := by
      simp only [scanChunk, hds]
      have : c :: (cs ++ ['*']) = (c :: cs) ++ ['*'] := rfl
      rw [this, hsl]
    have hsc2 : scanChunk ['*'] = (true, [], []) := by
      simp [scanChunk, dropStars, scanLoop]
    refine ⟨false, ?_⟩
    have hd : (String.mk (c :: cs ++ ['*'])).data = c :: (cs ++ ['*']) := rfl
    have hn : ("" : String).data = [] := rfl
    rw [hd, hn]
    simp only [matchLoop, hsc, hmc]
    simp [checkRest, hsc2, matchChunk]

theorem sepChars_snoc (cs : List String) (x : String) :
    sepChars (cs ++ [x]) = if cs = [] then x.data else sepChars cs ++ '/' :: x.data := by
  induction cs with
  | nil => simp [sepChars]
  | cons a t ih =>
    cases t with
    | nil => simp [sepChars]
    | cons b u =>
      have : (a :: b :: u) ++ [x] = a :: b :: (u ++ [x]) := rfl
      rw [this, sepChars]
      have ih' : sepChars (b :: (u ++ [x])) = sepChars (b :: u) ++ '/' :: x.data := by
        have := ih
        simpa using this
      rw [ih']
      simp [sepChars]

theorem isMagic_sep : isMagic '/' = false := by decide

theorem sepChars_plain (cs : List String) (h : ∀ s ∈ cs, hasMetaStr s = false) :
    ∀ c ∈ sepChars cs, isMagic c = false := by
  induction cs with
  | nil => simp [sepChars]
  | cons a t ih =>
    have ha := h a (by simp)
    simp only [hasMetaStr, List.any_eq_false] at ha
    cases t with
    | nil =>
      intro c hc
      simp only [sepChars] at hc
      simpa using ha c hc
    | cons b u =>
      intro c hc
      simp only [sepChars, List.mem_append, List.mem_cons] at hc
      rcases hc with hc | hc | hc
      · simpa using ha c hc
      · rw [hc]; exact isMagic_sep
      · exact ih (fun s hs => h s (by simp [hs])) c hc

/-- Text of the pattern `dir/*` for a directory path without pattern
characters: plain text and a star. -/
theorem chars_star (q : CleanPath) (h : hasMeta q = false) :
    ∃ d, CleanPath.chars ⟨q.rooted, q.comps ++ ["*"]⟩ = d ++ ['*'] ∧
      ∀ c ∈ d, isMagic c = false := by
  have hall : ∀ s ∈ q.comps, hasMetaStr s = false := by
    simpa [hasMeta, List.any_eq_false] using h
  have hsp := sepChars_plain q.comps hall
  have hstar : ("*" : String).data = ['*'] := rfl
  have hsn := sepChars_snoc q.comps "*"
  by_cases he : q.comps = []
  · have hs1 : sepChars (q.comps ++ ["*"]) = ['*'] := by rw [he]; rfl
    cases hr : q.rooted with
    | true =>
      refine ⟨['/'], by simp [CleanPath.chars, hs1], ?_⟩
      intro c hc
      simp only [List.mem_singleton] at hc
      rw [hc]; exact isMagic_sep
    | false =>
      refine ⟨[], ?_, by simp⟩
      simp [CleanPath.chars, hs1]
  · simp only [he, if_false, hstar] at hsn
    cases hr : q.rooted with
    | true =>
      refine ⟨'/' :: (sepChars q.comps ++ ['/']), by simp [CleanPath.chars, hsn], ?_⟩
      intro c hc
      simp only [List.mem_cons, List.mem_append, List.mem_singleton] at hc
      rcases hc with hc | hc | hc
      · rw [hc]; exact isMagic_sep
      · exact hsp c hc
      · simp at hc; rw [hc]; exact isMagic_sep
    | false =>
      refine ⟨sepChars q.comps ++ ['/'], ?_, ?_⟩
      · simp [CleanPath.chars, hsn]
      · intro c hc
        simp only [List.mem_append, List.mem_singleton] at hc
        rcases hc with hc | hc
        · exact hsp c hc
        · rw [hc]; exact isMagic_sep

/-- The matching loop of `glob` with the pattern `*` keeps every name
without a separator. -/
theorem globNames_star (q : CleanPath) (names : List String) (m : List CleanPath)
    (h : ∀ n ∈ names, plainName n) :
    globNames q "*" names m =
      .ok (m ++ names.map (fun n => ⟨q.rooted, q.comps ++ [n]⟩)) := by
  induction names generalizing m with
  | nil => simp [globNames]
  | cons a t ih =>
    have ha := h a (by simp)
    have hm : Match "*" a = .ok true := by
      rw [Match_star]; simp [ha.2.2.2]
    simp only [globNames, hm]
    rw [ih _ (fun n hn => h n (by simp [hn])), join_plain q a ha]
    simp

/-- `Glob` of `dir/*` for a directory path without pattern characters is
one `glob` of that directory. -/
theorem globRev_star (st : FS) (q : CleanPath) (h : hasMeta q = false) :
    globRev st q.rooted ("*" :: q.comps.reverse) 0 = globDir st q "*" [] := by
  have h1 : hasMeta ⟨q.rooted, ("*" :: q.comps.reverse).reverse⟩ = true := by
    simpa using hasMeta_star q.rooted q.comps
  have h2 : hasMeta ⟨q.rooted, q.comps.reverse.reverse⟩ = false := by simpa using h
  obtain ⟨d, hd, hpl⟩ := chars_star q h
  obtain ⟨b, hb⟩ := Match_plain_star d hpl
  have h3 : Match (CleanPath.toString ⟨q.rooted, ("*" :: q.comps.reverse).reverse⟩) "" =
      .ok b := by
    have : ("*" :: q.comps.reverse).reverse = q.comps ++ ["*"] := by simp
    rw [this, CleanPath.toString, hd]
    exact hb
  have h4 : ¬ (0 = pathSeparatorsLimit) := by decide
  rw [globRev]
  simp only [h4, if_false, h3, h1, h2]
  simp

theorem Join_star (l : List String) (q : CleanPath) (hq : Join l = some q) :
    Join (l ++ ["*"]) = some ⟨q.rooted, q.comps ++ ["*"]⟩ := by
  rw [← JoinP_Join l ["*"] q hq, hq]
  simp [JoinP, join_plain q "*" validName_star.1]

/-- `Glob` of `dir/*` when `dir` is a directory whose names are plain:
the entries of `dir` in the order of their names. -/
theorem Glob_dir (st : FS) (l : List String) (q : CleanPath) (m : Nat)
    (hq : Join l = some q) (hm : hasMeta q = false)
    (hd : statPath st q = .ok (.dir m))
    (hv : ∀ n ∈ sortedNames st (resolve st q), plainName n) :
    Glob st (Join (l ++ ["*"])) =
      .ok ((sortedNames st (resolve st q)).map (fun n => ⟨q.rooted, q.comps ++ [n]⟩)) := by
  rw [Join_star l q hq]
  simp only [Glob, List.reverse_append, List.reverse_cons, List.reverse_nil, List.nil_append,
    List.singleton_append]
  rw [globRev_star st q hm]
  simp only [globDir, Stat, hd]
  rw [globNames_star q _ [] hv]
  simp

/-- `Glob` of `dir/*` when `dir` is not a directory: nothing. -/
theorem Glob_nodir (st : FS) (l : List String) (q : CleanPath)
    (hq : Join l = some q) (hm : hasMeta q = false)
    (hd : ∀ m, statPath st q ≠ .ok (.dir m)) :
    Glob st (Join (l ++ ["*"])) = .ok [] := by
  rw [Join_star l q hq]
  simp only [Glob, List.reverse_append, List.reverse_cons, List.reverse_nil, List.nil_append,
    List.singleton_append]
  rw [globRev_star st q hm]
  simp only [globDir, Stat]
  cases hs : statPath st q with
  | error e => simp
  | ok x =>
    cases x with
    | file c m => simp
    | dir m => exact absurd hs (hd m)

theorem Size_dir (fs : FsAPI) (st : FS) (id name queue : String) (q : CleanPath) (m : Nat)
    (hq : queueDir fs id name queue = some q) (hm : hasMeta q = false)
    (hd : statPath st q = .ok (.dir m))
    (hv : ∀ n ∈ sortedNames st (resolve st q), plainName n) :
    fs.Size st id name queue = (.ok (sortedNames st (resolve st q)).length, st) := by
  have := Glob_dir st [fs.Path, privatePath, id, name, queue] q m hq hm hd hv
  simp only [List.cons_append, List.nil_append] at this
  simp [FsAPI.Size, this]

theorem Size_nodir (fs : FsAPI) (st : FS) (id name queue : String) (q : CleanPath)
    (hq : queueDir fs id name queue = some q) (hm : hasMeta q = false)
    (hd : ∀ m, statPath st q ≠ .ok (.dir m)) :
    fs.Size st id name queue = (.ok 0, st) := by
  have := Glob_nodir st [fs.Path, privatePath, id, name, queue] q hq hm hd
  simp only [List.cons_append, List.nil_append] at this
  simp [FsAPI.Size, this]

theorem Pop_nodir (fs : FsAPI) (st : FS) (id name queue : String) (q : CleanPath)
    (hq : queueDir fs id name queue = some q) (hm : hasMeta q = false)
    (hd : ∀ m, statPath st q ≠ .ok (.dir m)) :
    fs.Pop st id name queue = (.error "Nothing to pop", st) := by
  have := Glob_nodir st [fs.Path, privatePath, id, name, queue] q hq hm hd
  simp only [List.cons_append, List.nil_append] at this
  simp [FsAPI.Pop, this]

theorem Pop_nonames (fs : FsAPI) (st : FS) (id name queue : String) (q : CleanPath)
    (hq : queueDir fs id name queue = some q) (hm : hasMeta q = false)
    (he : sortedNames st (resolve st q) = []) :
    fs.Pop st id name queue = (.error "Nothing to pop", st) := by
  by_cases hd : ∃ m, statPath st q = .ok (.dir m)
  · obtain ⟨m, hd⟩ := hd
    have := Glob_dir st [fs.Path, privatePath, id, name, queue] q m hq hm hd (by simp [he])
    simp only [List.cons_append, List.nil_append, he, List.map_nil] at this
    simp [FsAPI.Pop, this]
  · exact Pop_nodir fs st id name queue q hq hm (fun m h => hd ⟨m, h⟩)

/-- A file in a directory, by the path of the directory and its name. -/
theorem statPath_child (st : FS) (q : CleanPath) (n : String) (m : Nat) (e : Entry)
    (hd : statPath st q = .ok (.dir m)) (hv : validName n)
    (hpe : pathErr ⟨q.rooted, q.comps ++ [n]⟩ = none)
    (hf : lookup st (resolve st q ++ [n]) = some e) :
    statPath st ⟨q.rooted, q.comps ++ [n]⟩ = .ok e := by
  rw [statPath_of _ _ hpe, resolve_snoc st q n hv.1, sysStat_snoc, (statPath_ok st q _ hd).2]
  simp [refused_valid st _ n hv, hf]

/-- `Pop` on a queue directory whose first name is a file: the content of
that file, and the state without it. -/
theorem Pop_file (fs : FsAPI) (st : FS) (id name queue : String) (q : CleanPath) (m : Nat)
    (n0 : String) (rest : List String) (c : String) (m0 : Nat)
    (hq : queueDir fs id name queue = some q) (hm : hasMeta q = false)
    (hd : statPath st q = .ok (.dir m))
    (hv : ∀ n ∈ sortedNames st (resolve st q), plainName n)
    (hn : sortedNames st (resolve st q) = n0 :: rest)
    (hv0 : validName n0) (hpe : pathErr ⟨q.rooted, q.comps ++ [n0]⟩ = none)
    (hf : lookup st (resolve st q ++ [n0]) = some (.file c m0)) :
    fs.Pop st id name queue = (.ok c, st.remove (resolve st q ++ [n0])) := by
  have hg := Glob_dir st [fs.Path, privatePath, id, name, queue] q m hq hm hd hv
  simp only [List.cons_append, List.nil_append, hn, List.map_cons] at hg
  have hs := statPath_child st q n0 m _ hd hv0 hpe hf
  simp [FsAPI.Pop, hg, ReadFile, Remove, resolve_snoc st q n0 hv0.1, hs]

/-- `Pop` on a queue directory whose first name cannot be read as a file
fails and changes nothing. -/
theorem Pop_first_unread (fs : FsAPI) (st : FS) (id name queue : String) (q : CleanPath)
    (m : Nat) (n0 : String) (rest : List String)
    (hq : queueDir fs id name queue = some q) (hm : hasMeta q = false)
    (hd : statPath st q = .ok (.dir m))
    (hv : ∀ n ∈ sortedNames st (resolve st q), plainName n)
    (hn : sortedNames st (resolve st q) = n0 :: rest)
    (hf : ∀ c m0, statPath st ⟨q.rooted, q.comps ++ [n0]⟩ ≠ .ok (.file c m0)) :
    ∃ e, fs.Pop st id name queue = (.error e, st) := by
  have hg := Glob_dir st [fs.Path, privatePath, id, name, queue] q m hq hm hd hv
  simp only [List.cons_append, List.nil_append, hn, List.map_cons] at hg
  simp only [FsAPI.Pop, hg, ReadFile]
  cases hs : statPath st ⟨q.rooted, q.comps ++ [n0]⟩ with
  | error e => exact ⟨_, rfl⟩
  | ok x =>
    cases x with
    | dir m1 => exact ⟨_, rfl⟩
    | file c m0 => exact absurd hs (hf c m0)

theorem queueDir_some (fs : FsAPI) (id name queue : String) :
    ∃ q, queueDir fs id name queue = some q :=
  Join_some _ privatePath (by simp) (by decide)

/-- What a successful `Push` did: the queue directory was made, and the
token bound in it to a file with the content. -/
theorem Push_ok (fs : FsAPI) (st st2 : FS) (tok id name queue c : String) (q : CleanPath)
    (hq : queueDir fs id name queue = some q) (ht : plainName tok)
    (h : fs.Push st tok id name queue c = (.ok (), st2)) :
    ∃ st1 m md, DirsMade st st1 (resolve st q) privateDirMode ∧
      statPath st1 q = .ok (.dir md) ∧
      ¬ (resolve st q ++ [tok]) <+: st1.cwd ∧
      pathErr ⟨q.rooted, q.comps ++ [tok]⟩ = none ∧
      refused st1 (resolve st q) tok = false ∧
      st2 = st1.set (resolve st q ++ [tok]) (.file c m) ∧
      (lookup st1 (resolve st q ++ [tok]) = none → m = privateFileMode) := by
  unfold FsAPI.Push at h
  unfold queueDir at hq
  simp only [hq] at h
  have hdm := MkdirAll_Join st _ q privateDirMode hq
  have hdir := MkdirAll_dir st q privateDirMode
  rcases hmk : MkdirAll st (some q) privateDirMode with ⟨st1, err⟩
  rw [hmk] at hdm hdir h
  simp only at hdm hdir h
  cases err with
  | some e => simp at h
  | none =>
    obtain ⟨md, hd⟩ := hdir rfl
    simp only [JoinP, join_plain q tok ht] at h
    cases hw : WriteFile st1 (some ⟨q.rooted, q.comps ++ [tok]⟩) c privateFileMode with
    | error e => simp [hw] at h
    | ok s =>
      simp only [hw, Prod.mk.injEq, true_and] at h
      subst h
      obtain ⟨hpe, P, n, m, e1, e2, _, e4, e6, e5⟩ := WriteFile_ok st1 s _ c _ hw
      rw [resolve_snoc st1 q tok ht, resolve_cwd st st1 q hdm.1] at e1
      have hP : resolve st q = P := (List.append_inj' e1 rfl).1
      have hn : tok = n := by simpa using (List.append_inj' e1 rfl).2
      subst hP; subst hn
      refine ⟨st1, m, md, hdm, hd, e4, hpe, e6, e2, ?_⟩
      intro hl
      rcases e5 with ⟨old, h5⟩ | ⟨_, h5⟩
      · rw [sysStat_ok_lookup st1 _ _ h5] at hl; cases hl
      · exact h5

/-- The queue directory after a successful `Push`: it is a directory, the
token names the new file, and every other name in it is bound as before. -/
theorem Push_queue (fs : FsAPI) (st st2 : FS) (tok id name queue c : String) (q : CleanPath)
    (hq : queueDir fs id name queue = some q) (ht : plainName tok)
    (h : fs.Push st tok id name queue c = (.ok (), st2)) :
    st2.cwd = st.cwd ∧ (∃ md, statPath st2 q = .ok (.dir md)) ∧
    pathErr ⟨q.rooted, q.comps ++ [tok]⟩ = none ∧
    (∃ m, lookup st2 (resolve st q ++ [tok]) = some (.file c m)) ∧
    ∀ n, n ≠ tok → lookup st2 (resolve st q ++ [n]) = lookup st (resolve st q ++ [n]) := by
  obtain ⟨st1, m, md, hdm, hd, hnc, hpe, _, rfl, _⟩ :=
    Push_ok fs st st2 tok id name queue c q hq ht h
  refine ⟨hdm.1, ⟨md, ?_⟩, hpe, ⟨m, lookup_set_self st1 _ _ hnc⟩, fun n hn => ?_⟩
  · rw [← hd]
    refine statPath_cwd st1 (st1.set (resolve st q ++ [tok]) (Entry.file c m)) q rfl ?_
    rw [resolve_cwd st st1 q hdm.1]
    exact sysStat_set_frame st1 _ _ _ (snoc_prefix_absurd _ tok)
  · have hne : resolve st q ++ [n] ≠ resolve st q ++ [tok] := by
      intro e; exact hn (by simpa using e)
    rw [lookup_set_other st1 _ _ _ hne]
    rcases hdm.2 (resolve st q ++ [n]) with h1 | ⟨_, h1, _⟩
    · exact h1
    · exact absurd h1 (snoc_prefix_absurd _ n)

/-- The queue directory after its entry `n0` is removed. -/
theorem remove_queue (st : FS) (q : CleanPath) (n0 c : String) (m : Nat)
    (hf : lookup st (resolve st q ++ [n0]) = some (.file c m)) :
    statPath (st.remove (resolve st q ++ [n0])) q = statPath st q ∧
    lookup (st.remove (resolve st q ++ [n0])) (resolve st q ++ [n0]) = none ∧
    ∀ k, k ≠ resolve st q ++ [n0] →
      lookup (st.remove (resolve st q ++ [n0])) k = lookup st k :=
  ⟨statPath_cwd st (st.remove (resolve st q ++ [n0])) q rfl
      (sysStat_remove_frame st _ _ (snoc_prefix_absurd _ n0)),
    lookup_remove_self st _ (not_prefix_cwd_of_lookup_file st _ c m hf),
    fun k hk => lookup_remove_other st _ k hk⟩

instance : IsTotal Item itemLe := ⟨fun a b => leChars_total a.1.data b.1.data⟩

instance : IsTrans Item itemLe := ⟨fun a b c => leChars_trans a.1.data b.1.data c.1.data⟩

theorem sorted_map_fst (items : List Item) :
    (items.map Prod.fst).Sorted nameLe ↔ items.Sorted itemLe := by
  simp only [List.Sorted, List.pairwise_map]
  rfl

theorem Size_nonames (fs : FsAPI) (st : FS) (id name queue : String) (q : CleanPath)
    (hq : queueDir fs id name queue = some q) (hm : hasMeta q = false)
    (he : sortedNames st (resolve st q) = []) :
    fs.Size st id name queue = (.ok 0, st) := by
  by_cases hd : ∃ m, statPath st q = .ok (.dir m)
  · obtain ⟨m, hd⟩ := hd
    have := Size_dir fs st id name queue q m hq hm hd (by simp [he])
    simpa [he] using this
  · exact Size_nodir fs st id name queue q hq hm (fun m h => hd ⟨m, h⟩)

theorem QueueIs_names_plain (st : FS) (q : CleanPath) (items : List Item)
    (h : QueueIs st q items) : ∀ n ∈ sortedNames st (resolve st q), plainName n := by
  intro n hn
  rw [h.2.1] at hn
  obtain ⟨it, hit, rfl⟩ := List.mem_map.1 hn
  exact (h.2.2 it hit).1.1

/-- `Size` of a queue is the number of its entries. -/
theorem Size_is (fs : FsAPI) (st : FS) (id name queue : String) (q : CleanPath)
    (items : List Item) (hq : queueDir fs id name queue = some q)
    (hm : hasMeta q = false) (h : QueueIs st q items) :
    fs.Size st id name queue = (.ok items.length, st) := by
  have hpl := QueueIs_names_plain st q items h
  obtain ⟨hd, hn, _⟩ := h
  cases items with
  | nil => exact Size_nonames fs st id name queue q hq hm (by simpa using hn)
  | cons a t =>
    obtain ⟨md, hd⟩ := hd (by simp)
    have := Size_dir fs st id name queue q md hq hm hd hpl
    rw [hn] at this
    simpa using this

/-- `Pop` of a queue without entries fails and changes nothing. -/
theorem Pop_nil (fs : FsAPI) (st : FS) (id name queue : String) (q : CleanPath)
    (hq : queueDir fs id name queue = some q) (hm : hasMeta q = false)
    (h : QueueIs st q []) :
    fs.Pop st id name queue = (.error "Nothing to pop", st) :=
  Pop_nonames fs st id name queue q hq hm (by simpa using h.2.1)

/-- `Pop` returns the content of the first entry and leaves the others. -/
theorem Pop_cons (fs : FsAPI) (st : FS) (id name queue : String) (q : CleanPath)
    (it : Item) (rest : List Item) (hq : queueDir fs id name queue = some q)
    (hm : hasMeta q = false) (h : QueueIs st q (it :: rest)) :
    fs.Pop st id name queue = (.ok it.2, st.remove (resolve st q ++ [it.1])) ∧
    QueueIs (st.remove (resolve st q ++ [it.1])) q rest := by
  have hpl := QueueIs_names_plain st q _ h
  obtain ⟨hd, hn, hf⟩ := h
  obtain ⟨md, hd⟩ := hd (by simp)
  obtain ⟨hv, hpe, m, hl⟩ := hf it (by simp)
  have hpop := Pop_file fs st id name queue q md it.1 (rest.map Prod.fst) it.2 m hq hm hd
    hpl (by simpa using hn) hv hpe hl
  refine ⟨hpop, ?_⟩
  obtain ⟨r1, r2, r3⟩ := remove_queue st q it.1 it.2 m hl
  have hsorted := sorted_sortedNames st (resolve st q)
  have hnodup := nodup_sortedNames st (resolve st q)
  rw [hn, List.map_cons] at hsorted hnodup
  have hnot : it.1 ∉ rest.map Prod.fst := (List.nodup_cons.1 hnodup).1
  rw [QueueIs, resolve_remove]
  refine ⟨fun _ => ⟨md, by rw [r1, hd]⟩, ?_, ?_⟩
  · apply sortedNames_eq _ _ _ hsorted.of_cons (List.nodup_cons.1 hnodup).2
    intro n
    by_cases hne : n = it.1
    · subst hne; simp [r2, hnot]
    · have hk : resolve st q ++ [n] ≠ resolve st q ++ [it.1] := by
        intro e; exact hne (by simpa using e)
      rw [r3 _ hk, ← mem_sortedNames, hn, List.map_cons, List.mem_cons]
      simp [hne]
  · intro x hx
    have hxn : x.1 ≠ it.1 := by
      intro e
      exact hnot (e ▸ List.mem_map_of_mem Prod.fst hx)
    have hk : resolve st q ++ [x.1] ≠ resolve st q ++ [it.1] := by
      intro e; exact hxn (by simpa using e)
    rw [r3 _ hk]
    exact hf x (by simp [hx])

/-- A successful `Push` with a fresh token adds the entry at its place in
the order of the tokens. -/
theorem Push_is (fs : FsAPI) (st st1 : FS) (tok id name queue c : String) (q : CleanPath)
    (items : List Item) (hq : queueDir fs id name queue = some q) (ht : validName tok)
    (h : QueueIs st q items) (hfresh : tok ∉ items.map Prod.fst)
    (hp : fs.Push st tok id name queue c = (.ok (), st1)) :
    QueueIs st1 q (items.orderedInsert itemLe (tok, c)) := by
  obtain ⟨_, hn, hf⟩ := h
  obtain ⟨hc, ⟨md, hd⟩, hpe, ⟨m, hl⟩, hfr⟩ :=
    Push_queue fs st st1 tok id name queue c q hq ht.1 hp
  have hK : resolve st1 q = resolve st q := resolve_cwd st st1 q hc
  have hs0 : items.Sorted itemLe := by
    rw [← sorted_map_fst, ← hn]; exact sorted_sortedNames st _
  have hnd0 : (items.map Prod.fst).Nodup := hn ▸ nodup_sortedNames st _
  rw [QueueIs, hK]
  refine ⟨fun _ => ⟨md, hd⟩, ?_, ?_⟩
  · apply sortedNames_eq
    · rw [sorted_map_fst]; exact hs0.orderedInsert (tok, c) items
    · have hp := (List.perm_orderedInsert itemLe (tok, c) items).map Prod.fst
      rw [hp.nodup_iff, List.map_cons]
      exact List.nodup_cons.2 ⟨hfresh, hnd0⟩
    · intro n
      have hp := (List.perm_orderedInsert itemLe (tok, c) items).map Prod.fst
      rw [hp.mem_iff, List.map_cons, List.mem_cons]
      by_cases hne : n = tok
      · subst hne; simp [hl]
      · rw [hfr n hne, ← mem_sortedNames, hn]; simp [hne]
  · intro x hx
    rw [List.mem_orderedInsert] at hx
    rcases hx with hx | hx
    · subst hx; exact ⟨ht, hpe, m, hl⟩
    · have hxn : x.1 ≠ tok := by
        intro e
        exact hfresh (e ▸ List.mem_map_of_mem Prod.fst hx)
      rw [hfr _ hxn]
      exact hf x hx

theorem QueueIs_empty (st : FS) (q : CleanPath) (he : sortedNames st (resolve st q) = []) :
    QueueIs st q [] :=
  ⟨fun h => absurd rfl h, by simpa using he, fun _ h => by simp at h⟩

theorem pushAll_is (fs : FsAPI) (id name queue : String) (q : CleanPath)
    (hq : queueDir fs id name queue = some q) (pushes : List Item) :
    ∀ (st stN : FS) (items : List Item), QueueIs st q items →
      (∀ it ∈ pushes, validName it.1) → (pushes.map Prod.fst).Nodup →
      (∀ it ∈ pushes, it.1 ∉ items.map Prod.fst) →
      pushAll fs id name queue st pushes = some stN →
      ∃ items', QueueIs stN q items' ∧ items'.length = items.length + pushes.length := by
  induction pushes with
  | nil =>
    intro st stN items h _ _ _ hp
    simp only [pushAll, Option.some.injEq] at hp
    subst hp
    exact ⟨items, h, by simp⟩
  | cons it rest ih =>
    intro st stN items h hv hnd hfr hp
    simp only [pushAll] at hp
    cases hpush : fs.Push st it.1 id name queue it.2 with
    | mk res st1 =>
      cases res with
      | error e => simp [hpush] at hp
      | ok u =>
        simp only [hpush] at hp
        have h1 := Push_is fs st st1 it.1 id name queue it.2 q items hq (hv it (by simp)) h
          (hfr it (by simp)) hpush
        rw [List.map_cons, List.nodup_cons] at hnd
        obtain ⟨items', hq', hlen⟩ := ih st1 stN _ h1 (fun x hx => hv x (by simp [hx])) hnd.2
          (by
            intro x hx hmem
            have hp := (List.perm_orderedInsert itemLe (it.1, it.2) items).map Prod.fst
            rw [hp.mem_iff, List.map_cons, List.mem_cons] at hmem
            rcases hmem with hmem | hmem
            · exact hnd.1 (hmem ▸ List.mem_map_of_mem Prod.fst hx)
            · exact hfr x (by simp [hx]) hmem) hp
        refine ⟨items', hq', ?_⟩
        rw [hlen, List.orderedInsert_length]
        simp only [List.length_cons]
        omega

theorem popAll_is (fs : FsAPI) (id name queue : String) (q : CleanPath)
    (hq : queueDir fs id name queue = some q) (hm : hasMeta q = false)
    (items : List Item) :
    ∀ st, QueueIs st q items →
      ∃ st1, popAll fs id name queue items.length st = some (items.map Prod.snd, st1) ∧
        QueueIs st1 q [] := by
  induction items with
  | nil => intro st h; exact ⟨st, rfl, h⟩
  | cons it rest ih =>
    intro st h
    obtain ⟨hpop, hrest⟩ := Pop_cons fs st id name queue q it rest hq hm h
    obtain ⟨st1, hp1, hq1⟩ := ih _ hrest
    refine ⟨st1, ?_, hq1⟩
    simp only [List.length_cons, popAll, hpop, hp1, List.map_cons]

/-- `Pop` on a queue directory whose first name is read as a file: the
content of that file, and the state without it. -/
theorem Pop_file_stat (fs : FsAPI) (st : FS) (id name queue : String) (q : CleanPath)
    (m : Nat) (n0 : String) (rest : List String) (c : String) (m0 : Nat)
    (hq : queueDir fs id name queue = some q) (hm : hasMeta q = false)
    (hd : statPath st q = .ok (.dir m))
    (hv : ∀ n ∈ sortedNames st (resolve st q), plainName n)
    (hn : sortedNames st (resolve st q) = n0 :: rest)
    (hs : statPath st ⟨q.rooted, q.comps ++ [n0]⟩ = .ok (.file c m0)) :
    fs.Pop st id name queue = (.ok c, st.remove (resolve st q ++ [n0])) := by
  have hg := Glob_dir st [fs.Path, privatePath, id, name, queue] q m hq hm hd hv
  simp only [List.cons_append, List.nil_append, hn, List.map_cons] at hg
  have hv0 : plainName n0 := hv n0 (by simp [hn])
  simp [FsAPI.Pop, hg, ReadFile, Remove, resolve_snoc st q n0 hv0, hs]

theorem string_length_zero (s : String) (h : s.length = 0) : s = "" := by
  apply String.ext
  have : s.data.length = 0 := h
  exact List.length_eq_zero.1 this

theorem length_dirEntries_dir (st : FS) (q : CleanPath) (m : Nat)
    (h : statPath st q = .ok (.dir m)) :
    (dirEntries st q).length = (sortedNames st (resolve st q)).length := by
  simp only [dirEntries, h, length_sortedNames]

theorem dirEntries_nodir (st : FS) (q : CleanPath)
    (h : ∀ m, statPath st q ≠ .ok (.dir m)) : dirEntries st q = [] := by
  unfold dirEntries
  cases hs : statPath st q with
  | error e => rfl
  | ok x =>
    cases x with
    | file c m => rfl
    | dir m => exact absurd hs (h m)

theorem mem_dirEntries_dir (st : FS) (q : CleanPath) (m : Nat) (n : String)
    (h : statPath st q = .ok (.dir m)) :
    n ∈ dirEntries st q ↔ n ∈ sortedNames st (resolve st q) := by
  simp only [dirEntries, h]
  exact (List.perm_insertionSort nameLe _).mem_iff.symm

/-- A walk that comes to a free name ends there with `ENOENT`, whatever
follows the name in the path. -/
theorem sysStat_missing (st : FS) (P : List String) (c : String) (m : Nat)
    (hpar : sysStat st P = .ok (.dir m)) (hr : refused st P c = false)
    (hno : lookup st (P ++ [c]) = none) (rest : List String) :
    sysStat st (P ++ c :: rest) = .error .ENOENT := by
  induction rest using List.reverseRecOn with
  | nil => rw [sysStat_snoc, hpar]; simp [hr, hno]
  | append_singleton r x ih =>
    have : P ++ c :: (r ++ [x]) = (P ++ c :: r) ++ [x] := by simp
    rw [this, sysStat_snoc, ih]

/-! ## Queues on paths without pattern characters

Where the path of the queue directory holds none of `*`, `?`, `[` and the
backslash, `Glob` lists that directory and the queue behaves as a queue. -/

/-- When the path of the queue directory has no pattern character, the
token is an ordinary file name, the queue is empty and `Push` succeeds,
then `Pop` returns the content pushed and `Size` is 0 afterwards. -/
theorem plain_push_pop (fs : FsAPI) (st st1 : FS) (tok id name queue c : String)
    (q : CleanPath) (hq : queueDir fs id name queue = some q) (hm : hasMeta q = false)
    (ht : validName tok) (he : sortedNames st (resolve st q) = [])
    (hp : fs.Push st tok id name queue c = (.ok (), st1)) :
    ∃ st2, fs.Pop st1 id name queue = (.ok c, st2) ∧
      fs.Size st2 id name queue = (.ok 0, st2) := by
  have h0 := QueueIs_empty st q he
  have h1 := Push_is fs st st1 tok id name queue c q [] hq ht h0 (by simp) hp
  simp only [List.orderedInsert] at h1
  obtain ⟨e1, h2⟩ := Pop_cons fs st1 id name queue q (tok, c) [] hq hm h1
  exact ⟨_, e1, by simpa using Size_is fs _ id name queue q [] hq hm h2⟩

theorem plain_push_pop_example :
    ∃ st2, sampleAPI.Pop (sampleAPI.Push sampleFS "t1" "alice" "incoming" "mail" "hello").2
        "alice" "incoming" "mail" = (.ok "hello", st2) ∧
      sampleAPI.Size st2 "alice" "incoming" "mail" = (.ok 0, st2) :=
  plain_push_pop sampleAPI sampleFS _ "t1" "alice" "incoming" "mail" "hello"
    ⟨true, ["tmp", "store", "private", "alice", "incoming", "mail"]⟩
    (by decide) (by decide) (by decide) (by decide) (by decide)

/-- When the path of the queue directory has no pattern character, the
tokens are ordinary file names, the second after the first in lexical
order, the queue is empty and both pushes succeed, then the next two pops
return the first content and then the second. -/
theorem plain_fifo (fs : FsAPI) (st st1 st2 : FS) (t1 t2 id name queue a b : String)
    (q : CleanPath) (hq : queueDir fs id name queue = some q) (hm : hasMeta q = false)
    (hv1 : validName t1) (hv2 : validName t2) (hle : nameLe t1 t2) (hne : t1 ≠ t2)
    (he : sortedNames st (resolve st q) = [])
    (hp1 : fs.Push st t1 id name queue a = (.ok (), st1))
    (hp2 : fs.Push st1 t2 id name queue b = (.ok (), st2)) :
    ∃ st3 st4, fs.Pop st2 id name queue = (.ok a, st3) ∧
      fs.Pop st3 id name queue = (.ok b, st4) := by
  have h0 := QueueIs_empty st q he
  have h1 := Push_is fs st st1 t1 id name queue a q [] hq hv1 h0 (by simp) hp1
  simp only [List.orderedInsert] at h1
  have h2 := Push_is fs st1 st2 t2 id name queue b q _ hq hv2 h1 (by simpa using Ne.symm hne) hp2
  have hnle : ¬ itemLe (t2, b) (t1, a) := by
    intro h
    exact hne (antisymm (r := nameLe) hle h)
  simp only [List.orderedInsert, hnle, if_false] at h2
  obtain ⟨e1, h3⟩ := Pop_cons fs st2 id name queue q (t1, a) [(t2, b)] hq hm h2
  obtain ⟨e2, _⟩ := Pop_cons fs _ id name queue q (t2, b) [] hq hm h3
  exact ⟨_, _, e1, e2⟩

theorem plain_fifo_example :
    ∃ st3 st4,
      sampleAPI.Pop (sampleAPI.Push (sampleAPI.Push sampleFS "t1" "alice" "incoming" "mail" "a").2
        "t2" "alice" "incoming" "mail" "b").2 "alice" "incoming" "mail" = (.ok "a", st3) ∧
      sampleAPI.Pop st3 "alice" "incoming" "mail" = (.ok "b", st4) :=
  plain_fifo sampleAPI sampleFS (sampleAPI.Push sampleFS "t1" "alice" "incoming" "mail" "a").2 _
    "t1" "t2" "alice" "incoming" "mail" "a" "b"
    ⟨true, ["tmp", "store", "private", "alice", "incoming", "mail"]⟩
    (by decide) (by decide) (by decide) (by decide) (by decide) (by decide) (by decide)
    (by decide) (by decide)

/-- When the path of the queue directory has no pattern character and the
queue is empty, after any number of successful pushes whose tokens are
ordinary file names, no two the same, `Size` returns that number; as many
pops then succeed, `Size` returns 0 and one more `Pop` fails with
`Nothing to pop`. -/
theorem plain_count (fs : FsAPI) (st st1 : FS) (id name queue : String) (q : CleanPath)
    (pushes : List Item) (hq : queueDir fs id name queue = some q)
    (hm : hasMeta q = false) (hv : ∀ it ∈ pushes, validName it.1)
    (hnd : (pushes.map Prod.fst).Nodup) (he : sortedNames st (resolve st q) = [])
    (hp : pushAll fs id name queue st pushes = some st1) :
    fs.Size st1 id name queue = (.ok pushes.length, st1) ∧
    ∃ outs st2, popAll fs id name queue pushes.length st1 = some (outs, st2) ∧
      fs.Size st2 id name queue = (.ok 0, st2) ∧
      fs.Pop st2 id name queue = (.error "Nothing to pop", st2) := by
  obtain ⟨items, hqi, hlen⟩ := pushAll_is fs id name queue q hq pushes st st1 []
    (QueueIs_empty st q he) hv hnd (by simp) hp
  simp only [List.length_nil, Nat.zero_add] at hlen
  have hs := Size_is fs st1 id name queue q items hq hm hqi
  rw [hlen] at hs
  obtain ⟨st2, hpop, hq2⟩ := popAll_is fs id name queue q hq hm items st1 hqi
  rw [hlen] at hpop
  exact ⟨hs, _, st2, hpop, by simpa using Size_is fs st2 id name queue q [] hq hm hq2,
    Pop_nil fs st2 id name queue q hq hm hq2⟩

theorem plain_count_example :
    sampleAPI.Size
      ((pushAll sampleAPI "alice" "incoming" "mail" sampleFS
        [("t2", "b"), ("t1", "a"), ("t3", "c")]).getD sampleFS)
      "alice" "incoming" "mail" =
      (.ok 3, (pushAll sampleAPI "alice" "incoming" "mail" sampleFS
        [("t2", "b"), ("t1", "a"), ("t3", "c")]).getD sampleFS) :=
  (plain_count sampleAPI sampleFS _ "alice" "incoming" "mail"
    ⟨true, ["tmp", "store", "private", "alice", "incoming", "mail"]⟩
    [("t2", "b"), ("t1", "a"), ("t3", "c")]
    (by decide) (by decide) (by decide) (by decide) (by decide) (by decide)).1

/-! ## Object store -/

/-- C4: a successful `WriteLocal`, `SendPublic` or `SendPrivate` is read
back exactly by `ReadLocal`, `GetPublic` or `GetPrivate` with the same
arguments, whatever the state held before the write. -/
theorem write_then_read (fs : FsAPI) (st st1 : FS) (id n c : String) :
    (fs.WriteLocal st n c = (.ok (), st1) → fs.ReadLocal st1 n = (.ok c, st1)) ∧
    (fs.SendPublic st id n c = (.ok (), st1) → fs.GetPublic st1 id n = (.ok c, st1)) ∧
    (fs.SendPrivate st id n c = (.ok (), st1) → fs.GetPrivate st1 id n = (.ok c, st1)) := by
  refine ⟨?_, ?_, ?_⟩
  · intro h
    unfold FsAPI.WriteLocal at h
    simp only at h
    cases hw : WriteFile st (Join [fs.Path, n]) c privateFileMode with
    | error e => simp [hw] at h
    | ok s =>
      simp [hw] at h
      subst h
      simp [FsAPI.ReadLocal, ReadFile_WriteFile _ _ _ _ _ hw]
  · intro h
    unfold FsAPI.SendPublic at h
    simp only at h
    rcases hm : MkdirAll st (Join [fs.Path, publicPath, id]) publicDirMode with ⟨s0, err⟩
    cases err with
    | some e => simp [hm] at h
    | none =>
      simp only [hm] at h
      cases hw : WriteFile s0 (JoinP (Join [fs.Path, publicPath, id]) [n]) c publicFileMode with
      | error e => simp [hw] at h
      | ok s =>
        simp [hw] at h
        subst h
        have hr := ReadFile_WriteFile _ _ _ _ _ hw
        obtain ⟨q, hj⟩ := Join_some [fs.Path, publicPath, id] publicPath (by simp)
          (by simp [publicPath])
        rw [JoinP_Join _ [n] q hj] at hr
        simp only [List.cons_append, List.nil_append] at hr
        simp [FsAPI.GetPublic, hr]
  · intro h
    unfold FsAPI.SendPrivate at h
    simp only at h
    rcases hm : MkdirAll st (Join [fs.Path, privatePath, id]) privateDirMode with ⟨s0, err⟩
    cases err with
    | some e => simp [hm] at h
    | none =>
      simp only [hm] at h
      cases hw : WriteFile s0 (JoinP (Join [fs.Path, privatePath, id]) [n]) c privateFileMode with
      | error e => simp [hw] at h
      | ok s =>
        simp [hw] at h
        subst h
        have hr := ReadFile_WriteFile _ _ _ _ _ hw
        obtain ⟨q, hj⟩ := Join_some [fs.Path, privatePath, id] privatePath (by simp)
          (by simp [privatePath])
        rw [JoinP_Join _ [n] q hj] at hr
        simp only [List.cons_append, List.nil_append] at hr
        simp [FsAPI.GetPrivate, hr]

theorem write_then_read_witness :
    sampleAPI.ReadLocal (sampleAPI.WriteLocal sampleFS "note" "new").2 "note" =
      (.ok "new", (sampleAPI.WriteLocal sampleFS "note" "new").2) ∧
    sampleAPI.GetPublic (sampleAPI.SendPublic sampleFS "bob" "note" "new").2 "bob" "note" =
      (.ok "new", (sampleAPI.SendPublic sampleFS "bob" "note" "new").2) ∧
    sampleAPI.GetPrivate (sampleAPI.SendPrivate sampleFS "bob" "note" "new").2 "bob" "note" =
      (.ok "new", (sampleAPI.SendPrivate sampleFS "bob" "note" "new").2) :=
  ⟨(write_then_read sampleAPI sampleFS _ "bob" "note" "new").1 (by decide),
   (write_then_read sampleAPI sampleFS _ "bob" "note" "new").2.1 (by decide),
   (write_then_read sampleAPI sampleFS _ "bob" "note" "new").2.2 (by decide)⟩

/-- C5: on a store whose `Id` is empty, `StorePublic`, `LoadPublic`,
`StorePrivate`, `LoadPrivate`, `PushOutgoing` and `PopIncoming` fail with
`Id cannot be empty` for all arguments and every file-system state, and
leave that state as it was. -/
theorem empty_id_rejected (fs : FsAPI) (h : fs.Id = "") (st : FS)
    (token name queue content : String) :
    fs.StorePublic st name content = (.error "Id cannot be empty", st) ∧
    fs.LoadPublic st name = (.error "Id cannot be empty", st) ∧
    fs.StorePrivate st name content = (.error "Id cannot be empty", st) ∧
    fs.LoadPrivate st name = (.error "Id cannot be empty", st) ∧
    fs.PushOutgoing st token queue content = (.error "Id cannot be empty", st) ∧
    fs.PopIncoming st queue = (.error "Id cannot be empty", st) := by
  simp [FsAPI.StorePublic, FsAPI.LoadPublic, FsAPI.StorePrivate, FsAPI.LoadPrivate,
    FsAPI.PushOutgoing, FsAPI.PopIncoming, h]

theorem empty_id_rejected_witness :
    sampleAPI.Id = "" ∧
    sampleAPI.StorePublic sampleFS "note" "new" = (.error "Id cannot be empty", sampleFS) ∧
    sampleAPI.PopIncoming sampleFS "mail" = (.error "Id cannot be empty", sampleFS) :=
  ⟨rfl, (empty_id_rejected sampleAPI rfl sampleFS "t" "note" "mail" "new").1,
    (empty_id_rejected sampleAPI rfl sampleFS "t" "note" "mail" "new").2.2.2.2.2⟩

/-- C7 fails as stated: nothing exists at `/tmp/store/note/x`, since `note`
is a regular file, and `ReadLocal` answers with the not-a-directory error
of a failed open, not with a not-found error. -/
theorem readLocal_absent_counterexample :
    Join [sampleAPI.Path, "note/x"] = some ⟨true, ["tmp", "store", "note", "x"]⟩ ∧
    lookup sampleFS ["tmp", "store", "note", "x"] = none ∧
    (sampleAPI.ReadLocal sampleFS "note/x").1 =
      .error "Could not read file '/tmp/store/note/x': open /tmp/store/note/x: not a directory" ∧
    (sampleAPI.ReadLocal sampleFS "note/x").1 ≠
      .error (notFoundError (Join [sampleAPI.Path, "note/x"])) := by
  decide

/-- C7 as amended: `ReadLocal` fails with `Could not read file`, the path
and the cause `no such file or directory` when the path is empty, and when
the path has no NUL byte, is shorter than `PATH_MAX` and leads through
existing directories to a name of at most `NAME_MAX` bytes under which
nothing exists, be it the last name of the path or one before it; every
failure of `ReadLocal` is an error of that one form, with the cause at its
end. -/
theorem readLocal_missing (fs : FsAPI) (st : FS) (n : String) :
    (Join [fs.Path, n] = none →
      fs.ReadLocal st n = (.error (notFoundError none), st)) ∧
    (∀ (q : CleanPath) (P : List String) (c : String) (rest : List String) (m : Nat),
      Join [fs.Path, n] = some q → pathErr q = none →
      resolve st q = P ++ c :: rest → sysStat st P = .ok (.dir m) →
      tooLong c = false → lookup st (P ++ [c]) = none →
      fs.ReadLocal st n = (.error (notFoundError (some q)), st)) ∧
    ∀ e, (fs.ReadLocal st n).1 = .error e →
      ∃ cause, e = readError (Join [fs.Path, n]) cause := by
  refine ⟨?_, ?_, ?_⟩
  · intro hq
    simp [FsAPI.ReadLocal, hq, ReadFile, notFoundError, readError, pathText]
  · intro q P c rest m hq hpe hr hpar hshort hno
    have hs : sysStat st (P ++ c :: rest) = .error .ENOENT :=
      sysStat_missing st P c m hpar (by simp [refused, hshort]) hno rest
    simp [FsAPI.ReadLocal, hq, ReadFile, statPath, hpe, hr, hs, notFoundError, readError,
      pathText]
  · intro e he
    unfold FsAPI.ReadLocal at he
    simp only at he
    cases hrd : ReadFile st (Join [fs.Path, n]) with
    | ok x => simp [hrd] at he
    | error cause =>
      simp [hrd] at he
      exact ⟨cause, by simp [readError, ← he]⟩

theorem readLocal_missing_witness :
    sampleAPI.ReadLocal sampleFS "zz" =
      (.error "Could not read file '/tmp/store/zz': open /tmp/store/zz: no such file or directory",
        sampleFS) ∧
    sampleAPI.ReadLocal sampleFS "dir/zz" =
      (.error "Could not read file '/tmp/store/dir/zz': open /tmp/store/dir/zz: no such file or directory",
        sampleFS) ∧
    FsAPI.ReadLocal ⟨"", ""⟩ sampleFS "" =
      (.error "Could not read file '': open : no such file or directory", sampleFS) :=
  ⟨(readLocal_missing sampleAPI sampleFS "zz").2.1 ⟨true, ["tmp", "store", "zz"]⟩
      ["tmp", "store"] "zz" [] 0o755 (by decide) (by decide) (by decide) (by decide)
      (by decide) (by decide),
    (readLocal_missing sampleAPI sampleFS "dir/zz").2.1 ⟨true, ["tmp", "store", "dir", "zz"]⟩
      ["tmp", "store"] "dir" ["zz"] 0o755 (by decide) (by decide) (by decide) (by decide)
      (by decide) (by decide),
    (readLocal_missing ⟨"", ""⟩ sampleFS "").1 (by decide)⟩

/-! ## Queues: identifiers read as patterns

`Push` joins the owner id, the direction and the queue name into the path
of a directory and uses that path as it is; `Pop` and `Size` hand the same
path, followed by `*`, to `filepath.Glob`, which reads it as a pattern.
The theorems of this section evaluate the code where the two differ. -/

/-- C1: two pushes to an empty queue are popped in the order of their
tokens.  The code breaks this at the owner id `[`: both pushes succeed, the
second token after the first, and both entries are stored in the directory
named `[`, but the next `Pop` fails with the malformed-pattern error of
`Glob` instead of returning `a`. -/
theorem fifo_pattern_id :
    sortedNames sampleFS ["tmp", "store", "private", "[", "incoming", "mail"] = [] ∧
    (sampleAPI.Push sampleFS "t1" "[" "incoming" "mail" "a").1 = .ok () ∧
    (sampleAPI.Push (sampleAPI.Push sampleFS "t1" "[" "incoming" "mail" "a").2
        "t2" "[" "incoming" "mail" "b").1 = .ok () ∧
    nameLe "t1" "t2" ∧ "t1" ≠ "t2" ∧
    sortedNames (sampleAPI.Push (sampleAPI.Push sampleFS "t1" "[" "incoming" "mail" "a").2
        "t2" "[" "incoming" "mail" "b").2
      ["tmp", "store", "private", "[", "incoming", "mail"] = ["t1", "t2"] ∧
    (sampleAPI.Pop (sampleAPI.Push (sampleAPI.Push sampleFS "t1" "[" "incoming" "mail" "a").2
        "t2" "[" "incoming" "mail" "b").2 "[" "incoming" "mail").1 =
      .error "Could not glob files: syntax error in pattern" := by
  decide

/-- C2: a push to an empty queue is popped back, and the queue is empty
afterwards.  The code breaks this at the owner id `[`: `Push` succeeds and
stores the content in the directory named `[`, but `Pop` fails with the
malformed-pattern error of `Glob`; at the owner id `[a]` it fails with
`Nothing to pop`. -/
theorem push_pop_pattern_id :
    sortedNames sampleFS ["tmp", "store", "private", "[", "incoming", "mail"] = [] ∧
    (sampleAPI.Push sampleFS "t1" "[" "incoming" "mail" "hello").1 = .ok () ∧
    lookup (sampleAPI.Push sampleFS "t1" "[" "incoming" "mail" "hello").2
      ["tmp", "store", "private", "[", "incoming", "mail", "t1"] =
      some (.file "hello" privateFileMode) ∧
    (sampleAPI.Pop (sampleAPI.Push sampleFS "t1" "[" "incoming" "mail" "hello").2
        "[" "incoming" "mail").1 =
      .error "Could not glob files: syntax error in pattern" ∧
    (sampleAPI.Push sampleFS "t1" "[a]" "incoming" "mail" "hello").1 = .ok () ∧
    (sampleAPI.Pop (sampleAPI.Push sampleFS "t1" "[a]" "incoming" "mail" "hello").2
        "[a]" "incoming" "mail").1 = .error "Nothing to pop" := by
  decide

/-- C3: after N pushes to an empty queue `Size` is N.  The code breaks this
at the owner id `[`: after one successful push, which stores its entry in
the directory named `[`, `Size` does not return 1 but fails with the
malformed-pattern error of `Glob`; at the owner id `[a]` it returns 0. -/
theorem queue_count_pattern_id :
    sortedNames sampleFS ["tmp", "store", "private", "[", "incoming", "mail"] = [] ∧
    (sampleAPI.Push sampleFS "t1" "[" "incoming" "mail" "a").1 = .ok () ∧
    sortedNames (sampleAPI.Push sampleFS "t1" "[" "incoming" "mail" "a").2
      ["tmp", "store", "private", "[", "incoming", "mail"] = ["t1"] ∧
    (sampleAPI.Size (sampleAPI.Push sampleFS "t1" "[" "incoming" "mail" "a").2
        "[" "incoming" "mail").1 =
      .error "Could not glob files: syntax error in pattern" ∧
    (sampleAPI.Push sampleFS "t1" "[a]" "incoming" "mail" "a").1 = .ok () ∧
    (sampleAPI.Size (sampleAPI.Push sampleFS "t1" "[a]" "incoming" "mail" "a").2
        "[a]" "incoming" "mail").1 = .ok 0 := by
  decide

/-- C6: `Pop` removes the earliest entry of the queue it is called for,
and fails with `Nothing to pop`, changing nothing, when that queue has no
entries.  The code breaks this where the owner id is read as a pattern: the
queue of `[` has no entries and `Pop` fails with the malformed-pattern
error of `Glob`; the queue of `*` has no entries and `Pop` succeeds,
returning and removing the earliest entry of the queue of `bob`. -/
theorem pop_pattern_id :
    dirEntries sampleQueueFS ⟨true, ["tmp", "store", "private", "[", "incoming", "mail"]⟩ = [] ∧
    (sampleAPI.Pop sampleQueueFS "[" "incoming" "mail").1 =
      .error "Could not glob files: syntax error in pattern" ∧
    dirEntries sampleQueueFS ⟨true, ["tmp", "store", "private", "*", "incoming", "mail"]⟩ = [] ∧
    (sampleAPI.Pop sampleQueueFS "*" "incoming" "mail").1 = .ok "x" ∧
    (sampleAPI.Pop sampleQueueFS "*" "incoming" "mail").2 =
      sampleQueueFS.remove ["tmp", "store", "private", "bob", "incoming", "mail", "t0"] := by
  decide

/-- C8: `Size` returns, without error, the number of entries in the
directory of the queue it is called for.  The code breaks this where the
owner id is read as a pattern: for `[` it fails with the malformed-pattern
error of `Glob`, and for `*`, whose own directory does not exist, it counts
the two entries of the queue of `bob`. -/
theorem size_pattern_id :
    (sampleAPI.Size sampleQueueFS "[" "incoming" "mail").1 =
      .error "Could not glob files: syntax error in pattern" ∧
    dirEntries sampleQueueFS ⟨true, ["tmp", "store", "private", "*", "incoming", "mail"]⟩ = [] ∧
    (sampleAPI.Size sampleQueueFS "*" "incoming" "mail").1 = .ok 2 := by
  decide

/-- C9: what `PushIncoming` delivers to a target, `PopIncoming` on the
store of that target returns.  The code breaks this at the target `[`:
`PushIncoming` on the store without identity succeeds and stores the
content in the incoming queue directory of `[`, but `PopIncoming` on the
store of `[` fails with the malformed-pattern error of `Glob`. -/
theorem incoming_pattern_id :
    sortedNames sampleFS ["tmp", "store", "private", "[", "incoming", "mail"] = [] ∧
    (sampleAPI.PushIncoming sampleFS "t1" "[" "mail" "hello").1 = .ok () ∧
    lookup (sampleAPI.PushIncoming sampleFS "t1" "[" "mail" "hello").2
      ["tmp", "store", "private", "[", "incoming", "mail", "t1"] =
      some (.file "hello" privateFileMode) ∧
    (FsAPI.PopIncoming ⟨"[", "/tmp/store"⟩
        (sampleAPI.PushIncoming sampleFS "t1" "[" "mail" "hello").2 "mail").1 =
      .error "Could not glob files: syntax error in pattern" := by
  decide

/-! ## Confinement of public writes -/

/-- C10 fails as stated: with the target `../private/bob` the path of
`SendPublic` resolves into the private tier, the file is written there with
the public file mode, and `GetPrivate` of `bob` returns it afterwards while
it failed before. -/
theorem sendPublic_counterexample :
    (sampleAPI.SendPublic sampleFS "../private/bob" "k" "evil").1 = .ok () ∧
    lookup (sampleAPI.SendPublic sampleFS "../private/bob" "k" "evil").2
      ["tmp", "store", "private", "bob", "k"] = some (.file "evil" publicFileMode) ∧
    (sampleAPI.GetPrivate sampleFS "bob" "k").1 =
      .error "Could not read file '/tmp/store/private/bob/k': open /tmp/store/private/bob/k: no such file or directory" ∧
    (sampleAPI.GetPrivate (sampleAPI.SendPublic sampleFS "../private/bob" "k" "evil").2
      "bob" "k").1 = .ok "evil" := by
  decide

/-- C10 as amended: when the root is an existing directory and the
directory and the file of the call, as `filepath.Join` cleans them, lie at
or beneath `root/public`, `SendPublic`, whether it succeeds or fails,
leaves every path that is not at or beneath `root/public` bound as before;
`GetPrivate` and `ReadLocal` then return what they returned before
whenever the path they read is not at or beneath `root/public`. -/
theorem sendPublic_confined (fs : FsAPI) (st : FS) (id name c : String)
    (p d f : CleanPath) (m : Nat)
    (hp : Join [fs.Path, publicPath] = some p)
    (hd : Join [fs.Path, publicPath, id] = some d)
    (hf : Join [fs.Path, publicPath, id, name] = some f)
    (hroot : sysStat st (resolve st p).dropLast = .ok (.dir m))
    (hdu : resolve st p <+: resolve st d) (hfu : resolve st p <+: resolve st f) :
    (∀ k, ¬ resolve st p <+: k →
      lookup (fs.SendPublic st id name c).2 k = lookup st k) ∧
    (∀ id1 name1, (∀ g, Join [fs.Path, privatePath, id1, name1] = some g →
        ¬ resolve st p <+: resolve st g) →
      (fs.GetPrivate (fs.SendPublic st id name c).2 id1 name1).1 =
        (fs.GetPrivate st id1 name1).1) ∧
    (∀ name1, (∀ g, Join [fs.Path, name1] = some g → ¬ resolve st p <+: resolve st g) →
      (fs.ReadLocal (fs.SendPublic st id name c).2 name1).1 =
        (fs.ReadLocal st name1).1) := by
  have _ := hp
  obtain ⟨hc, hfr⟩ := SendPublic_frame fs st id name c d f hd hf
  have hframe : ∀ k, ¬ resolve st p <+: k →
      lookup (fs.SendPublic st id name c).2 k = lookup st k := by
    intro k hk
    rcases hfr k with h | h | ⟨h1, h2⟩
    · exact h
    · exact absurd (h ▸ hfu) hk
    · exfalso
      rcases List.prefix_or_prefix_of_prefix hdu h2 with h3 | h3
      · exact hk h3
      · have hne : k ≠ resolve st p := fun e => hk (e ▸ List.prefix_refl _)
        have hk2 : k <+: (resolve st p).dropLast := by
          obtain ⟨t, ht⟩ := h3
          rcases List.eq_nil_or_concat t with h5 | ⟨t', x, h5⟩
          · subst h5; simp at ht; exact absurd ht hne
          · rw [List.concat_eq_append] at h5
            subst h5
            rw [← ht, ← List.append_assoc, List.dropLast_concat]
            exact List.prefix_append k t'
        exact lookup_prefix_of_sysStat st _ _ hroot k hk2 h1
  refine ⟨hframe, ?_, ?_⟩
  · intro id1 name1 hg
    have := ReadFile_frame st _ (resolve st p) hc hframe
      (Join [fs.Path, privatePath, id1, name1]) hg
    simp only [FsAPI.GetPrivate, this]
    cases ReadFile st (Join [fs.Path, privatePath, id1, name1]) <;> rfl
  · intro name1 hg
    have := ReadFile_frame st _ (resolve st p) hc hframe (Join [fs.Path, name1]) hg
    simp only [FsAPI.ReadLocal, this]
    cases ReadFile st (Join [fs.Path, name1]) <;> rfl

theorem sendPublic_confined_witness :
    (sampleAPI.ReadLocal (sampleAPI.SendPublic sampleFS "bob" "k" "v").2 "note").1 =
      (sampleAPI.ReadLocal sampleFS "note").1 :=
  (sendPublic_confined sampleAPI sampleFS "bob" "k" "v"
    ⟨true, ["tmp", "store", "public"]⟩ ⟨true, ["tmp", "store", "public", "bob"]⟩
    ⟨true, ["tmp", "store", "public", "bob", "k"]⟩ 0o755
    (by decide) (by decide) (by decide) (by decide) (by decide) (by decide)).2.2 "note" (by
      intro g hg
      have : g = ⟨true, ["tmp", "store", "note"]⟩ := by
        have h2 : Join [sampleAPI.Path, "note"] = some ⟨true, ["tmp", "store", "note"]⟩ := by
          decide
        rw [h2] at hg
        exact (Option.some.inj hg).symm
      subst this
      decide)

end PkiFs
